import Mathlib

/-!
Shallow embedding of the `pyfinding` package (pathfinding.py, coin.py,
memo.py, alternatives.py): a grid-based travelling-salesman estimator.

Conventions of the embedding:
* a board is a list of rows, each row a list of characters ('.', '#', '*');
* cells are pairs of integers (row, column), since the Python code forms
  `position ± 1` before bounds checks;
* Python's unbounded `float("inf")` sentinels are modelled with `ℕ∞`;
* Python dictionaries are modelled as total functions (coin distance
  caches, A* distance map) or association lists (the memo);
* loops that are not structurally recursive carry an explicit fuel
  argument, instantiated generously by the wrappers;
* Python exceptions are modelled with `Except Err`.
-/

abbrev Cell : Type := ℤ × ℤ

abbrev Board : Type := List (List Char)

/-- Errors raised by the Python code: `ValueError("No path!")`, an
`IndexError` from `movements[0]` on an empty list, division by zero /
`min` of an empty sequence, and exhaustion of the fuel bound. -/
inductive Err where
  | noPath : Err
  | idxErr : Err
  | emptyMin : Err
  | divZero : Err
  | noFuel : Err
deriving DecidableEq, Repr

/-- Cell lookup `board[r][c]`; callers bounds-check first, the default is
never read on rectangular boards. -/
def boardGet (board : Board) (r c : ℤ) : Char :=
  (board.getD r.toNat []).getD c.toNat '#'

/-- `get_movements(position, board)`: the in-bounds, non-wall neighbours of
`position`, in the fixed offset order down, right, up, left. -/
def get_movements (position : Cell) (board : Board) : List Cell :=
  [((1 : ℤ), (0 : ℤ)), (0, 1), (-1, 0), (0, -1)].foldl
    (fun acc off =>
      let newRow := position.1 + off.1
      if newRow < 0 ∨ (board.length : ℤ) ≤ newRow then acc
      else
        let newCol := position.2 + off.2
        if newCol < 0 ∨ ((board.headD []).length : ℤ) ≤ newCol ∨
            boardGet board newRow newCol = '#' then acc
        else acc ++ [(newRow, newCol)])
    []

/-- The squared euclidean distance between two cells.  The Python code
sorts by `((a0-b0)^2 + (a1-b1)^2) ** 0.5`; square root is monotone and the
squared values are exact small integers, so sorting by the square yields
the same order. -/
def euclid_sq (a b : Cell) : ℤ :=
  (a.1 - b.1) ^ 2 + (a.2 - b.2) ^ 2

/-- Insert `x` into `l` before the first element with a strictly larger
key (stable insertion). -/
def insSorted (key : Cell → ℤ) (x : Cell) : List Cell → List Cell
  | [] => [x]
  | y :: ys => if key x ≤ key y then x :: y :: ys else y :: insSorted key x ys

/-- Stable sort by `key` ascending, as Python's `sorted`. -/
def ssort (key : Cell → ℤ) : List Cell → List Cell
  | [] => []
  | x :: xs => insSorted key x (ssort key xs)

/-- One state of the A*-style search of `find_path_len_with_a_star`.
`opn` is the `open` stack with its top first (Python appends and pops at
the end of the list), `close` the explored list, `nm` the `n_movements`
map. -/
def astarLoop (board : Board) (b : Cell) :
    ℕ → List Cell → List Cell → (Cell → ℕ) → Except Err ℕ
  | 0, _, _, _ => .error .noFuel
  | _ + 1, [], _, _ => .error .noPath
  | fuel + 1, node :: opnRest, close, nm =>
      let nmd := nm node + 1
      let close' := node :: close
      let movements := ssort (fun x => euclid_sq b x) (get_movements node board)
      match movements with
      | [] => .error .idxErr
      | m0 :: _ =>
        if m0 = b then .ok nmd
        else
          let st := movements.foldl
            (fun (p : (Cell → ℕ) × List Cell) m =>
              let g := fun c => if c = m then nmd else p.1 c
              if m ∈ close' ∨ m ∈ p.2 then (g, p.2) else (g, m :: p.2))
            (nm, opnRest)
          astarLoop board b fuel st.2 close' st.1

/-- `find_path_len_with_a_star(a, b, board)`.  The fuel bound
`rows * cols + 1` is never reached: each cell enters the open stack at
most once, so the loop runs at most once per cell. -/
def find_path_len_with_a_star (a b : Cell) (board : Board) : Except Err ℕ :=
  astarLoop board b (board.length * (board.headD []).length + 1)
    [a] [] (fun c => if c = a then 0 else 0)

/-- `Coin`: coordinates, discovery index `i`, and the `step_distance`
dictionary, modelled as a total function (entries default to 0 before they
are populated). -/
structure Coin where
  coords : Cell
  i : ℕ
  step_distance : Cell → ℕ

def Coin.set_step_distance (c : Coin) (coords : Cell) (d : ℕ) : Coin :=
  { c with step_distance := fun x => if x = coords then d else c.step_distance x }

def Coin.get_step_distance (c : Coin) (coords : Cell) : ℕ :=
  c.step_distance coords

/-- The coin scan at the top of `get_expected_length`: coins in row-major
order, each with `i = len(coins)` at creation time. -/
def scanCell (r : ℕ) (acc : List Coin) (col : ℕ × Char) : List Coin :=
  if col.2 = '*' then
    acc ++ [⟨((r : ℤ), (col.1 : ℤ)), acc.length, fun _ => 0⟩]
  else acc

def scanCoins (board : Board) : List Coin :=
  board.enum.foldl
    (fun acc (row : ℕ × List Char) => row.2.enum.foldl (scanCell row.1) acc)
    []

/-- Inner loop of `set_coin_distances`: fix `coin_a`, walk the tail,
computing each distance once and caching it on both coins. -/
def scdInner (board : Board) (a : Coin) :
    List Coin → Except Err (Coin × List Coin)
  | [] => .ok (a, [])
  | b :: rest =>
      match find_path_len_with_a_star a.coords b.coords board with
      | .error e => .error e
      | .ok d =>
          match scdInner board (a.set_step_distance b.coords d) rest with
          | .error e => .error e
          | .ok (a'', rest') => .ok (a'', (b.set_step_distance a.coords d) :: rest')

/-- Outer loop of `set_coin_distances`.  The fuel argument only drives the
recursion; `scdInner` preserves the length of the tail, so the wrapper's
fuel (the length of the list) is always exact. -/
def scdOuter (board : Board) : ℕ → List Coin → Except Err (List Coin)
  | _, [] => .ok []
  | 0, _ :: _ => .error .noFuel
  | fuel + 1, a :: rest =>
      match scdInner board a rest with
      | .error e => .error e
      | .ok (a', rest') =>
          match scdOuter board fuel rest' with
          | .error e => .error e
          | .ok rest'' => .ok (a' :: rest'')

/-- `set_coin_distances(coins, board)`, returning the updated coin list. -/
def set_coin_distances (board : Board) (coins : List Coin) :
    Except Err (List Coin) :=
  scdOuter board coins.length coins

def dummyCoin : Coin := ⟨(0, 0), 0, fun _ => 0⟩

/-- The memo cache of `memo.py`: `total` coins, `base = 1 << total`, and
the dictionary as an association list (later writes are prepended; keys
are written at most once, and lookup takes the first match, so this is
exactly Python's dictionary behaviour). -/
structure Memo where
  total : ℕ
  base : ℕ
  memo : List ((ℕ × ℕ) × ℕ∞)

def memoLookup : List ((ℕ × ℕ) × ℕ∞) → ℕ × ℕ → Option ℕ∞
  | [], _ => none
  | e :: rest, k => if e.1 = k then some e.2 else memoLookup rest k

/-- `Memo._get_state`: the key of a (coin, remaining-set) pair — the
coin's index together with `base` joined with one bit per remaining coin. -/
def Memo.getState (m : Memo) (coin : Coin) (remaining : List Coin) : ℕ × ℕ :=
  (coin.i, remaining.foldl (fun s c => s ||| (1 <<< c.i)) m.base)

def Memo.get (m : Memo) (coin : Coin) (remaining : List Coin) : Option ℕ∞ :=
  memoLookup m.memo (m.getState coin remaining)

def Memo.set (m : Memo) (coin : Coin) (remaining : List Coin) (d : ℕ∞) :
    Memo :=
  { m with memo := (m.getState coin remaining, d) :: m.memo }

/-- Accumulator of the nearest-neighbour candidate scan inside
`traverse_graph_with_nn`: `min_idx`, `min_distance`, `min_step_distance`,
and the memo (mutated in place by recursive calls). -/
structure ScanSt where
  minIdx : ℕ
  minDistance : ℕ∞
  minStep : ℕ∞
  memo : Option Memo

/-- The candidate scan of one `traverse_graph_with_nn` loop iteration:
fold over `enumerate(remaining)`, pruning candidates whose direct distance
reaches `bd`, recursing through `recurse` for the lookahead estimate when
`depth > 1` and more than one coin remains, and keeping the candidate with
the strictly smallest score.  `recurse` receives the bound, candidate,
shrunken remaining list and memo of the recursive solver call. -/
def nnScan (recurse : ℕ∞ → Coin → List Coin → Option Memo →
      ℕ∞ × Option Memo) (bd : ℕ∞) (depth : ℕ) (current : Coin)
    (remaining : List Coin) (memo : Option Memo) : ScanSt :=
  remaining.enum.foldl
    (fun (st : ScanSt) (p : ℕ × Coin) =>
      let nodeDistance : ℕ∞ := (p.2.get_step_distance current.coords : ℕ)
      if bd ≤ nodeDistance then st
      else
        let sub : ℕ∞ × Option Memo :=
          if 1 < depth ∧ 1 < remaining.length then
            recurse st.minStep p.2 (remaining.eraseIdx p.1) st.memo
          else (0, st.memo)
        let stepDistance := nodeDistance + sub.1
        if stepDistance < st.minStep then
          ⟨p.1, nodeDistance, stepDistance, sub.2⟩
        else
          { st with memo := sub.2 })
    ⟨0, ⊤, ⊤, memo⟩

/-- The body of `traverse_graph_with_nn`.  `fuel` is structural and
strictly exceeds `depth + remaining.length` at every call, so it never
runs out; `bd` is `best_distance`, `distance` the accumulated total,
`path0` the first element of `path` and `popped` its tail. -/
def tgo : ℕ → ℕ∞ → ℕ → Coin → List Coin → Option Memo → ℕ∞ → Coin →
    List Coin → ℕ∞ × Option Memo
  | 0, _, _, _, _, memo, distance, _, _ => (distance, memo)
  | _ + 1, _, _, _, [], memo, distance, path0, popped =>
      match memo with
      | some m => (distance, some (m.set path0 popped distance))
      | none => (distance, none)
  | fuel + 1, bd, depth, current, c :: cs, memo, distance, path0, popped =>
      let remaining := c :: cs
      let hit := match memo with
        | some m => m.get current remaining
        | none => none
      match hit with
      | some v => (distance + v, memo)
      | none =>
        let scan := nnScan
          (fun b' node rem' mo => tgo fuel b' (depth - 1) node rem' mo 0 node [])
          bd depth current remaining memo
        let current' := remaining.getD scan.minIdx dummyCoin
        let remaining' := remaining.eraseIdx scan.minIdx
        tgo fuel bd depth current' remaining' scan.memo
          (distance + scan.minDistance) path0 (popped ++ [current'])

/-- `traverse_graph_with_nn(current, remaining, memo, depth,
best_distance)`: the nearest-neighbour approximate tour solver, returning
the distance together with the memo (which Python mutates in place). -/
def traverse_graph_with_nn (current : Coin) (remaining : List Coin)
    (memo : Option Memo) (depth : ℕ) (bd : ℕ∞) : ℕ∞ × Option Memo :=
  tgo (depth + remaining.length + 1) bd depth current remaining memo 0
    current []

/-- All size-`k` combinations, in the order of `itertools.combinations`:
those containing the first element first. -/
def combos : ℕ → List α → List (List α)
  | 0, _ => [[]]
  | _ + 1, [] => []
  | k + 1, x :: xs => (combos k xs).map (x :: ·) ++ combos (k + 1) xs

/-- One combination's tour length: `min` over the `K` start choices of the
solver's result, the shared memo threaded through every call. -/
def bestStart (K : ℕ) (combo : List Coin) (memo : Memo) :
    Except Err (ℕ∞ × Memo) :=
  match K with
  | 0 => .error .emptyMin
  | _ =>
    .ok ((List.range K).foldl
      (fun (acc : ℕ∞ × Memo) idx =>
        let t := traverse_graph_with_nn (combo.getD idx dummyCoin)
          (combo.eraseIdx idx) (some acc.2) 2 ⊤
        (min acc.1 t.1, match t.2 with | some m => m | none => acc.2))
      (⊤, memo))

/-- The loop over combinations: each one appends its best tour length to
`path_lenghts`, threading the shared memo. -/
def runCombos (K : ℕ) :
    List (List Coin) → List ℕ∞ → Memo → Except Err (List ℕ∞ × Memo)
  | [], acc, m => .ok (acc, m)
  | combo :: rest, acc, m =>
      match bestStart K combo m with
      | .error e => .error e
      | .ok (best, m') => runCombos K rest (acc ++ [best]) m'

/-- The aggregator's main loop: every size-`K` combination in order, the
shared memo threaded throughout; returns the list `path_lenghts` and the
final memo state. -/
def run_combinations (K : ℕ) (coins : List Coin) (memo0 : Memo) :
    Except Err (List ℕ∞ × Memo) :=
  runCombos K (combos K coins) [] memo0

/-- `get_expected_length(board, K)`: scan the coins, populate all pairwise
distances, then average the best tour length over all size-`K`
combinations.  The result is `⊤` when a pruned-to-infinity value survives
(Python would return `float("inf")`). -/
def get_expected_length (board : Board) (K : ℕ) :
    Except Err (WithTop ℚ) :=
  match set_coin_distances board (scanCoins board) with
  | .error e => .error e
  | .ok coins =>
      match run_combinations K coins ⟨coins.length, 1 <<< coins.length, []⟩ with
      | .error e => .error e
      | .ok st =>
          let lens := st.1
          if lens.length = 0 then .error .divZero
          else
            let s := lens.foldl (· + ·) (0 : ℕ∞)
            if s = ⊤ then .ok ⊤
            else .ok ((s.toNat : ℚ) / (lens.length : ℚ) : ℚ)

/-- The per-permutation sum of `brute_force_find_graph_subset_distance`:
step distances between consecutive coins of the permutation. -/
def path_steps : List Coin → ℕ
  | [] => 0
  | [_] => 0
  | a :: b :: rest => a.get_step_distance b.coords + path_steps (b :: rest)

/-- `brute_force_find_graph_subset_distance(coins)`: the minimum of the
path sum over every permutation (`⊤` on the empty permutation list never
occurs: `permutations` is never empty). -/
def brute_force_find_graph_subset_distance (coins : List Coin) : ℕ∞ :=
  coins.permutations.foldl
    (fun best p =>
      if (path_steps p : ℕ∞) < best then (path_steps p : ℕ∞) else best) ⊤

/-- The `transition_matrix` of `held_karp_algorithm_for_shortest_distance`:
`coin_a.get_step_distance(coin_b.coords)` off the diagonal (Python compares
coins by coordinates). -/
def transitionMatrix (coins : List Coin) : List (List ℕ) :=
  coins.map (fun a =>
    coins.map (fun b =>
      if a.coords ≠ b.coords then a.get_step_distance b.coords else 0))

/-- The bitmask state of a subset of coin indices on top of `base`. -/
def hkState (baseState : ℕ) (subset : List ℕ) : ℕ :=
  subset.foldl (fun s i => s ||| (1 <<< i)) baseState

/-- `held_karp_algorithm_for_shortest_distance(start, coins)`.  The
`distance_by_state` dictionary is a total function defaulting to `⊤`
(every key the algorithm reads has been written).  Python clears bit
`coin_idx` of `final_state` with `& ~(1 << coin_idx)`; that bit is always
set there, so this equals subtraction. -/
def held_karp_algorithm_for_shortest_distance (start : Coin)
    (coins : List Coin) : ℕ∞ :=
  let baseState := 1 <<< coins.length
  let coinIdxs := List.range coins.length
  let dbs1 : ℕ × ℕ → ℕ∞ := coins.enum.foldl
    (fun f (p : ℕ × Coin) =>
      fun k => if k = (baseState ||| (1 <<< p.1), p.1) then
        (p.2.get_step_distance start.coords : ℕ∞) else f k)
    (fun _ => ⊤)
  let tm := transitionMatrix coins
  let dbs2 := (List.range' 2 (coins.length - 1)).foldl
    (fun f n =>
      (combos n coinIdxs).foldl
        (fun f2 subset =>
          let finalState := hkState baseState subset
          subset.foldl
            (fun f3 cidx =>
              let subsetState := finalState - (1 <<< cidx)
              let others := subset.filter (fun j => j ≠ cidx)
              let v := others.foldl
                (fun acc t =>
                  min acc (f3 (subsetState, t) + ((tm.getD t []).getD cidx 0 : ℕ∞)))
                ⊤
              fun k => if k = (finalState, cidx) then v else f3 k)
            f2)
        f)
    dbs1
  let finalAll := (1 <<< (coins.length + 1)) - 1
  coinIdxs.foldl (fun acc idx => min acc (dbs2 (finalAll, idx))) ⊤

/-- `walkOk board a b steps` checks that successively stepping through
`steps` is a legal walk from `a` to `b`: every step moves to an in-bounds,
non-wall neighbour of the previous cell. -/
def walkOk (board : Board) : Cell → Cell → List Cell → Bool
  | a, b, [] => decide (a = b)
  | a, b, v :: rest => decide (v ∈ get_movements a board) && walkOk board v b rest

/-- The set of lengths of legal walks from `a` to `b`; its infimum is the
true shortest step distance. -/
def walkDists (board : Board) (a b : Cell) : Set ℕ :=
  {n | ∃ p, walkOk board a b p = true ∧ p.length = n}

/-- The ordered pairs `(coins[i], coins[j])`, `i < j`, in scan order. -/
def pairsOf : List α → List (α × α)
  | [] => []
  | a :: rest => rest.map (fun b => (a, b)) ++ pairsOf rest

/-- `find_starting_node(coins)`: the coin on a globally shortest edge whose
cheapest link to a coin outside that edge is largest.  `none` when there is
no pair at all (Python raises an `IndexError` then). -/
def find_starting_node (coins : List Coin) : Option Coin :=
  let st := (pairsOf coins).foldl
    (fun (acc : ℕ∞ × List (Coin × Coin)) e =>
      let d : ℕ∞ := (e.1.get_step_distance e.2.coords : ℕ)
      if d < acc.1 then (d, [e])
      else if d = acc.1 then (acc.1, acc.2 ++ [e])
      else acc)
    (⊤, [])
  let edges := st.2
  match edges with
  | [] => none
  | e0 :: _ =>
    let r := edges.foldl
      (fun (acc : Coin × ℕ∞) e =>
        let others := coins.filter
          (fun n => ¬(n.coords = e.1.coords ∨ n.coords = e.2.coords))
        [e.1, e.2].foldl
          (fun acc2 coin =>
            let cmc := others.foldl
              (fun m node => min m (coin.get_step_distance node.coords : ℕ∞)) ⊤
            if acc2.2 < cmc then (coin, cmc) else acc2)
          acc)
      (e0.1, 0)
    some r.1

/-! ## Concrete boards used by the claims -/

/-- A 2 × 3 board with two mutually reachable coins on the bottom row and
a free top row: the oracle detours through the top row. -/
def branchBoard : Board := [['.', '.', '.'], ['*', '.', '*']]

/-- A board whose first coin is sealed in by walls (no legal move at all). -/
def sealedBoard : Board := [['*', '#'], ['#', '#'], ['.', '*']]

/-- A single row of five adjacent coins. -/
def fiveBoard : Board := [['*', '*', '*', '*', '*']]

/-- One row, coins at columns 0, 2, 3: pairwise distances 2, 1, 3. -/
def threeBoard : Board := [['*', '.', '*', '*']]

/-! ## C8 -/

/-- C8: on `branchBoard` the Distance Oracle returns 4 for the pair of
coins, although a legal walk of length 2 joins them (they are mutually
reachable); the heuristic-ordered depth-first search is not cost-optimal,
so the true shortest distance (the infimum of walk lengths) is exceeded. -/
theorem c8_astar_overestimates :
    find_path_len_with_a_star (1, 0) (1, 2) branchBoard = .ok 4 ∧
    walkOk branchBoard (1, 0) (1, 2) [(1, 1), (1, 2)] = true ∧
    walkOk branchBoard (1, 2) (1, 0) [(1, 1), (1, 0)] = true ∧
    sInf (walkDists branchBoard (1, 0) (1, 2)) < 4 := by
  have h2 : (2 : ℕ) ∈ walkDists branchBoard (1, 0) (1, 2) :=
    ⟨[(1, 1), (1, 2)], rfl, rfl⟩
  exact ⟨rfl, rfl, rfl, lt_of_le_of_lt (Nat.sInf_le h2) (by norm_num)⟩

/-! ## C10: the oracle's result is always the length of a legal walk -/

theorem mem_insSorted {key : Cell → ℤ} {x y : Cell} {l : List Cell} :
    y ∈ insSorted key x l ↔ y = x ∨ y ∈ l := by
  induction l with
  | nil => simp [insSorted]
  | cons z zs ih =>
      by_cases h : key x ≤ key z
      · simp [insSorted, h, List.mem_cons]
      · simp only [insSorted, if_neg h, List.mem_cons, ih]
        tauto

theorem mem_ssort {key : Cell → ℤ} {y : Cell} {l : List Cell} :
    y ∈ ssort key l ↔ y ∈ l := by
  induction l with
  | nil => simp [ssort]
  | cons z zs ih => simp [ssort, mem_insSorted, ih]

/-- Extending a legal walk by one legal movement. -/
theorem walkOk_snoc {board : Board} :
    ∀ {p : List Cell} {a v w : Cell}, walkOk board a v p = true →
      w ∈ get_movements v board → walkOk board a w (p ++ [w]) = true := by
  intro p
  induction p with
  | nil =>
      intro a v w h hw
      have hav : a = v := by simpa [walkOk] using h
      subst hav
      simp [walkOk, hw]
  | cons x xs ih =>
      intro a v w h hw
      simp only [walkOk, Bool.and_eq_true, decide_eq_true_eq] at h
      simpa [walkOk, h.1] using ih h.2 hw

/-- The write-and-push fold of one A* iteration preserves the invariant
that every open cell's recorded distance is realised by a legal walk. -/
theorem astar_scatter_inv {board : Board} {a : Cell} {nmd : ℕ}
    (close' : List Cell) :
    ∀ (ms : List Cell) (nm : Cell → ℕ) (o : List Cell),
      (∀ m ∈ ms, ∃ p, walkOk board a m p = true ∧ p.length = nmd) →
      (∀ v ∈ o, ∃ p, walkOk board a v p = true ∧ p.length = nm v) →
      ∀ v ∈ (ms.foldl
        (fun (p : (Cell → ℕ) × List Cell) m =>
          let g := fun c => if c = m then nmd else p.1 c
          if m ∈ close' ∨ m ∈ p.2 then (g, p.2) else (g, m :: p.2))
        (nm, o)).2,
        ∃ p, walkOk board a v p = true ∧
          p.length = (ms.foldl
            (fun (p : (Cell → ℕ) × List Cell) m =>
              let g := fun c => if c = m then nmd else p.1 c
              if m ∈ close' ∨ m ∈ p.2 then (g, p.2) else (g, m :: p.2))
            (nm, o)).1 v := by
  intro ms
  induction ms with
  | nil => intro nm o _ ho; exact ho
  | cons m ms ih =>
      intro nm o hms ho
      simp only [List.foldl_cons]
      by_cases hmem : m ∈ close' ∨ m ∈ o
      · simp only [if_pos hmem]
        refine ih _ _ (fun x hx => hms x (List.mem_cons_of_mem _ hx)) ?_
        intro v hv
        by_cases hvm : v = m
        · subst hvm
          simpa using hms v (List.mem_cons_self _ _)
        · simpa [hvm] using ho v hv
      · simp only [if_neg hmem]
        refine ih _ _ (fun x hx => hms x (List.mem_cons_of_mem _ hx)) ?_
        intro v hv
        by_cases hvm : v = m
        · subst hvm
          simpa using hms v (List.mem_cons_self _ _)
        · rcases List.mem_cons.mp hv with hvm' | hvo
          · exact absurd hvm' hvm
          · simpa [hvm] using ho v hvo

/-- Soundness of the A* loop: if every open cell's distance is realised by
a legal walk from `a` and the loop returns `n`, then `n` is the length of
a legal walk from `a` to `b`. -/
theorem astarLoop_sound {board : Board} {a b : Cell} :
    ∀ (fuel : ℕ) (opn close : List Cell) (nm : Cell → ℕ) (n : ℕ),
      (∀ v ∈ opn, ∃ p, walkOk board a v p = true ∧ p.length = nm v) →
      astarLoop board b fuel opn close nm = .ok n →
      ∃ p, walkOk board a b p = true ∧ p.length = n ∧ 1 ≤ n := by
  intro fuel
  induction fuel with
  | zero => intro opn close nm n _ h; simp [astarLoop] at h
  | succ fuel ih =>
      intro opn close nm n hinv h
      match opn with
      | [] => simp [astarLoop] at h
      | node :: opnRest =>
          rw [astarLoop] at h
          rcases hmv : ssort (fun x => euclid_sq b x) (get_movements node board)
            with _ | ⟨m0, mrest⟩
          · rw [hmv] at h; simp at h
          · rw [hmv] at h
            simp only [] at h
            by_cases hm0 : m0 = b
            · rw [if_pos hm0] at h
              have hn : nm node + 1 = n := Except.ok.inj h
              obtain ⟨p, hp, hplen⟩ := hinv node (List.mem_cons_self _ _)
              have hb : b ∈ get_movements node board := by
                rw [← hm0]
                exact mem_ssort.mp (hmv ▸ List.mem_cons_self _ _)
              refine ⟨p ++ [b], walkOk_snoc hp hb, ?_, by omega⟩
              simp [hplen, hn]
            · rw [if_neg hm0] at h
              obtain ⟨pn, hpn, hpnlen⟩ := hinv node (List.mem_cons_self _ _)
              have hms : ∀ m ∈ ssort (fun x => euclid_sq b x)
                  (get_movements node board),
                  ∃ p, walkOk board a m p = true ∧ p.length = nm node + 1 := by
                intro m hm
                exact ⟨pn ++ [m], walkOk_snoc hpn (mem_ssort.mp hm),
                  by simp [hpnlen]⟩
              rw [hmv] at hms
              exact ih _ _ _ _
                (astar_scatter_inv (node :: close) (m0 :: mrest) nm opnRest
                  hms (fun v hv => hinv v (List.mem_cons_of_mem _ hv))) h

/-- C10: whenever the Distance Oracle returns normally for `a ≠ b`, the
returned value is the length of a legal walk from `a` to `b` (unit moves
through in-bounds non-wall cells), hence at least the true shortest step
distance and at least 1. -/
theorem c10_astar_sound_walk {board : Board} {a b : Cell} {n : ℕ}
    (hab : a ≠ b) (h : find_path_len_with_a_star a b board = .ok n) :
    (∃ p, walkOk board a b p = true ∧ p.length = n) ∧
      sInf (walkDists board a b) ≤ n ∧ 1 ≤ n := by
  have hinv : ∀ v ∈ [a], ∃ p, walkOk board a v p = true ∧
      p.length = (fun c : Cell => if c = a then 0 else 0) v := by
    intro v hv
    rcases List.mem_singleton.mp hv with rfl
    exact ⟨[], by simp [walkOk], by simp⟩
  obtain ⟨p, hp, hlen, hpos⟩ :=
    @astarLoop_sound board a b _ [a] [] _ n hinv h
  exact ⟨⟨p, hp, hlen⟩, Nat.sInf_le ⟨p, hp, hlen⟩, hpos⟩

/-- Witness for C10 on the short corridor. -/
theorem c10_astar_sound_walk_witness :
    (∃ p, walkOk [['*', '.', '*']] (0, 0) (0, 2) p = true ∧ p.length = 2) ∧
      sInf (walkDists [['*', '.', '*']] (0, 0) (0, 2)) ≤ 2 ∧ 1 ≤ 2 :=
  c10_astar_sound_walk (by decide) rfl
/-! ## C5: unreachable coins make the computation fail -/

/-- A normal return of the oracle always carries a legal walk. -/
theorem astar_ok_walk {board : Board} {a b : Cell} {n : ℕ}
    (h : find_path_len_with_a_star a b board = .ok n) :
    ∃ p, walkOk board a b p = true ∧ p.length = n := by
  have hinv : ∀ v ∈ [a], ∃ p, walkOk board a v p = true ∧
      p.length = (fun c : Cell => if c = a then 0 else 0) v := by
    intro v hv
    rcases List.mem_singleton.mp hv with rfl
    exact ⟨[], by simp [walkOk], by simp⟩
  obtain ⟨p, hp, hlen, _⟩ :=
    @astarLoop_sound board a b _ [a] [] _ n hinv h
  exact ⟨p, hp, hlen⟩

/-- `scdInner` keeps every coordinate and only succeeds if the oracle
succeeded on the head coin paired with each tail coin. -/
theorem scdInner_ok {board : Board} :
    ∀ (rest : List Coin) (a a' : Coin) (rest' : List Coin),
      scdInner board a rest = .ok (a', rest') →
      a'.coords = a.coords ∧
        rest'.map (·.coords) = rest.map (·.coords) ∧
        ∀ b ∈ rest, ∃ d,
          find_path_len_with_a_star a.coords b.coords board = .ok d := by
  intro rest
  induction rest with
  | nil =>
      intro a a' rest' h
      simp only [scdInner] at h
      cases h
      exact ⟨rfl, rfl, by simp⟩
  | cons b rest ih =>
      intro a a' rest' h
      simp only [scdInner] at h
      rcases hd : find_path_len_with_a_star a.coords b.coords board with e | d
      · rw [hd] at h; exact absurd h (by simp)
      · rw [hd] at h
        dsimp only at h
        rcases hin : scdInner board (a.set_step_distance b.coords d) rest
          with e | ⟨a'', rest''⟩
        · rw [hin] at h; exact absurd h (by simp)
        · rw [hin] at h
          obtain ⟨ha, hmap, hall⟩ := ih _ _ _ hin
          cases h
          refine ⟨ha, by simp [Coin.set_step_distance, hmap], ?_⟩
          intro c hc
          rcases List.mem_cons.mp hc with rfl | hc'
          · exact ⟨d, hd⟩
          · exact hall c hc'

/-- A helper: in-bounds `getD` is a member. -/
theorem getD_mem {l : List Coin} {j : ℕ} (h : j < l.length) :
    l.getD j dummyCoin ∈ l := by
  induction l generalizing j with
  | nil => simp at h
  | cons x xs ih =>
      cases j with
      | zero => exact List.mem_cons_self _ _
      | succ j =>
          exact List.mem_cons_of_mem _ (ih (by simpa using h))

/-- A helper: `getD` through a coordinate-preserving list. -/
theorem getD_coords_eq {l l' : List Coin}
    (h : l'.map (·.coords) = l.map (·.coords)) (i : ℕ) :
    (l'.getD i dummyCoin).coords = (l.getD i dummyCoin).coords := by
  by_cases hi : i < l.length
  · have hlen : l'.length = l.length := by
      have := congrArg List.length h
      simpa using this
    have h1 : (l'.map (·.coords)).getD i dummyCoin.coords =
        (l.map (·.coords)).getD i dummyCoin.coords := by rw [h]
    rwa [List.getD_map, List.getD_map] at h1
  · have hlen : l'.length = l.length := by
      have := congrArg List.length h
      simpa using this
    rw [List.getD_eq_default, List.getD_eq_default] <;> omega

/-- When the outer distance loop succeeds, the oracle succeeded on every
scan-ordered pair. -/
theorem scdOuter_ok {board : Board} :
    ∀ (fuel : ℕ) (l l' : List Coin), scdOuter board fuel l = .ok l' →
      ∀ i j, i < j → j < l.length → ∃ d,
        find_path_len_with_a_star (l.getD i dummyCoin).coords
          (l.getD j dummyCoin).coords board = .ok d := by
  intro fuel
  induction fuel with
  | zero =>
      intro l l' h i j hij hj
      cases l with
      | nil => simp at hj
      | cons a rest => exact absurd h (by simp [scdOuter])
  | succ fuel ih =>
      intro l l' h i j hij hj
      cases l with
      | nil => simp at hj
      | cons a rest =>
          simp only [scdOuter] at h
          rcases hin : scdInner board a rest with e | ⟨a', rest'⟩
          · rw [hin] at h; exact absurd h (by simp)
          · rw [hin] at h
            dsimp only at h
            rcases hout : scdOuter board fuel rest' with e | rest''
            · rw [hout] at h; exact absurd h (by simp)
            · obtain ⟨_, hmap, hall⟩ := scdInner_ok rest a a' rest' hin
              cases i with
              | zero =>
                  cases j with
                  | zero => omega
                  | succ j =>
                      have hjlen : j < rest.length := by
                        simpa using hj
                      simp only [List.getD_cons_zero, List.getD_cons_succ]
                      exact hall _ (getD_mem hjlen)
              | succ i =>
                  cases j with
                  | zero => omega
                  | succ j =>
                      have hjlen : j < rest'.length := by
                        have : rest'.length = rest.length := by
                          have := congrArg List.length hmap; simpa using this
                        simp at hj; omega
                      have hres := ih rest' rest'' hout i j (by omega) hjlen
                      have hci := getD_coords_eq hmap i
                      have hcj := getD_coords_eq hmap j
                      rw [List.getD_cons_succ, List.getD_cons_succ, ← hci, ← hcj]
                      exact hres

/-- The sealed coin of `sealedBoard` has no legal move, so no walk leaves
it. -/
theorem sealed_no_walk : ∀ p, walkOk sealedBoard (0, 0) (2, 1) p = false := by
  intro p
  cases p with
  | nil => rfl
  | cons v rest =>
      have hmv : get_movements (0 : Cell) sealedBoard = [] := rfl
      simp [walkOk, hmv]

/-- C5 counterexample: `sealedBoard` walls its first coin off from the
second (no legal walk joins them), yet `get_expected_length` fails with the
index error raised by `movements[0]` on an empty list — not with the
`"No path!"` error the claim requires. -/
theorem c5_sealed_coin_index_error_cex :
    (∀ p, walkOk sealedBoard (0, 0) (2, 1) p = false) ∧
      get_expected_length sealedBoard 2 = .error .idxErr ∧
      Err.idxErr ≠ Err.noPath :=
  ⟨sealed_no_walk, rfl, by decide⟩

/-- C5 (amended): whenever some scan-ordered coin pair of a board has no
legal walk joining it, `get_expected_length` never returns a numeric
result (it fails — with `"No path!"` when every explored cell has a legal
move, with an index error when one has none). -/
theorem c5_unreachable_never_numeric (board : Board) (K : ℕ) {i j : ℕ}
    (hij : i < j) (hj : j < (scanCoins board).length)
    (hnw : ∀ p, walkOk board ((scanCoins board).getD i dummyCoin).coords
        (((scanCoins board).getD j dummyCoin).coords) p = false) :
    ∀ q, get_expected_length board K ≠ .ok q := by
  intro q h
  simp only [get_expected_length] at h
  rcases hscd : set_coin_distances board (scanCoins board) with e | coins
  · rw [hscd] at h; exact absurd h (by simp)
  · obtain ⟨d, hd⟩ := scdOuter_ok _ _ _ hscd i j hij hj
    obtain ⟨p, hp, _⟩ := astar_ok_walk hd
    rw [hnw p] at hp
    exact absurd hp (by simp)

/-- Witness for C5 on the sealed board. -/
theorem c5_unreachable_never_numeric_witness :
    get_expected_length sealedBoard 2 ≠ .ok 1 :=
  c5_unreachable_never_numeric sealedBoard 2 (i := 0) (j := 1)
    (by decide) (by decide) sealed_no_walk 1
/-! ## C3: the memo is not transparent -/

/-- At depth 1 the scan never recurses: its selection components do not
depend on the memo or on the recursion callback, and its memo passes
through unchanged. -/
theorem nnScan_d1 (recurse recurse' : ℕ∞ → Coin → List Coin → Option Memo →
      ℕ∞ × Option Memo) (bd : ℕ∞) (cur : Coin) (rem : List Coin)
    (mo mo' : Option Memo) :
    nnScan recurse bd 1 cur rem mo =
      { nnScan recurse' bd 1 cur rem mo' with memo := mo } := by
  unfold nnScan
  have key : ∀ (l : List (ℕ × Coin)) (i : ℕ) (d s : ℕ∞),
      ∀ (m1 m2 : Option Memo),
      (l.foldl
        (fun (st : ScanSt) (p : ℕ × Coin) =>
          let nodeDistance : ℕ∞ := (p.2.get_step_distance cur.coords : ℕ)
          if bd ≤ nodeDistance then st
          else
            let sub : ℕ∞ × Option Memo :=
              if 1 < 1 ∧ 1 < rem.length then
                recurse st.minStep p.2 (rem.eraseIdx p.1) st.memo
              else (0, st.memo)
            let stepDistance := nodeDistance + sub.1
            if stepDistance < st.minStep then
              ⟨p.1, nodeDistance, stepDistance, sub.2⟩
            else
              { st with memo := sub.2 })
        ⟨i, d, s, m1⟩) =
      { (l.foldl
        (fun (st : ScanSt) (p : ℕ × Coin) =>
          let nodeDistance : ℕ∞ := (p.2.get_step_distance cur.coords : ℕ)
          if bd ≤ nodeDistance then st
          else
            let sub : ℕ∞ × Option Memo :=
              if 1 < 1 ∧ 1 < rem.length then
                recurse' st.minStep p.2 (rem.eraseIdx p.1) st.memo
              else (0, st.memo)
            let stepDistance := nodeDistance + sub.1
            if stepDistance < st.minStep then
              ⟨p.1, nodeDistance, stepDistance, sub.2⟩
            else
              { st with memo := sub.2 })
        ⟨i, d, s, m2⟩) with memo := m1 } := by
    intro l
    induction l with
    | nil => intro i d s m1 m2; rfl
    | cons p l ihl =>
        intro i d s m1 m2
        simp only [List.foldl_cons]
        have hfalse : ¬(1 < 1 ∧ 1 < rem.length) := by simp
        by_cases hbd : bd ≤ ((p.2.get_step_distance cur.coords : ℕ) : ℕ∞)
        · simp only [if_pos hbd]
          exact ihl i d s m1 m2
        · simp only [if_neg hbd, if_neg hfalse]
          by_cases hlt : ((p.2.get_step_distance cur.coords : ℕ) : ℕ∞) + 0 < s
          · simp only [if_pos hlt]
            exact ihl _ _ _ m1 m2
          · simp only [if_neg hlt]
            exact ihl i d s m1 m2
  exact key rem.enum 0 ⊤ ⊤ mo mo'

/-- With no lookahead (depth 1) a traverse call given an *empty* memo
returns the same value as with no memo at all: nothing is ever read, and
the single write happens only on exit. -/
theorem tgo_d1_empty (m : Memo) (hm : m.memo = []) :
    ∀ (fuel : ℕ) (bd : ℕ∞) (cur : Coin) (rem : List Coin) (dist : ℕ∞)
      (path0 : Coin) (popped : List Coin),
      (tgo fuel bd 1 cur rem (some m) dist path0 popped).1 =
        (tgo fuel bd 1 cur rem none dist path0 popped).1 := by
  intro fuel
  induction fuel with
  | zero => intro bd cur rem dist path0 popped; rfl
  | succ fuel ih =>
      intro bd cur rem dist path0 popped
      cases rem with
      | nil => rfl
      | cons c cs =>
          rw [tgo, tgo]
          have hget : m.get cur (c :: cs) = none := by
            unfold Memo.get
            rw [hm]
            rfl
          simp only [hget]
          have hscan := nnScan_d1
            (fun b' node rem' mo => tgo fuel b' (1 - 1) node rem' mo 0 node [])
            (fun b' node rem' mo => tgo fuel b' (1 - 1) node rem' mo 0 node [])
            bd cur (c :: cs) (some m) none
          have hmemoN : (nnScan
              (fun b' node rem' mo => tgo fuel b' (1 - 1) node rem' mo 0 node [])
              bd 1 cur (c :: cs) none).memo = none := by
            have h2 := congrArg ScanSt.memo (nnScan_d1
              (fun b' node rem' mo => tgo fuel b' (1 - 1) node rem' mo 0 node [])
              (fun b' node rem' mo => tgo fuel b' (1 - 1) node rem' mo 0 node [])
              bd cur (c :: cs) none none)
            simpa using h2
          rw [hscan]
          dsimp only
          rw [hmemoN]
          exact ih _ _ _ _ _ _

/-- The coins of `fiveBoard` with populated distances. -/
def fiveCoins : List Coin :=
  match set_coin_distances fiveBoard (scanCoins fiveBoard) with
  | .ok l => l
  | .error _ => []

/-- The memo state at the end of the aggregator run
`get_expected_length(fiveBoard, 5)`. -/
def fiveMemo : Memo :=
  match run_combinations 5 fiveCoins ⟨5, 1 <<< 5, []⟩ with
  | .ok st => st.2
  | .error _ => ⟨0, 0, []⟩

/-- C3 counterexample: `fiveMemo` is reached by the aggregator run on
`fiveBoard` with K = 5, yet the solver returns 5 for the input
(coin 2, [coin 0, coin 1, coin 3], depth 2) with that memo and 4 without
any memo: the memo changes the returned value (its keys ignore the
depth at which an entry was produced). -/
theorem c3_memo_changes_value_cex :
    (run_combinations 5 fiveCoins ⟨5, 1 <<< 5, []⟩).map (fun st => st.2) =
        .ok fiveMemo ∧
      (traverse_graph_with_nn (fiveCoins.getD 2 dummyCoin)
        [fiveCoins.getD 0 dummyCoin, fiveCoins.getD 1 dummyCoin,
          fiveCoins.getD 3 dummyCoin] (some fiveMemo) 2 ⊤).1 = 5 ∧
      (traverse_graph_with_nn (fiveCoins.getD 2 dummyCoin)
        [fiveCoins.getD 0 dummyCoin, fiveCoins.getD 1 dummyCoin,
          fiveCoins.getD 3 dummyCoin] none 2 ⊤).1 = 4 :=
  ⟨rfl, rfl, rfl⟩

/-- C3 (amended): a memo can change the solver's returned value, but a
*fresh empty* memo at lookahead depth 1 cannot: such a call reads nothing
and writes only on exit. -/
theorem c3_empty_memo_depth_one_transparent (current : Coin)
    (remaining : List Coin) (bd : ℕ∞) (m : Memo) (hm : m.memo = []) :
    (traverse_graph_with_nn current remaining (some m) 1 bd).1 =
      (traverse_graph_with_nn current remaining none 1 bd).1 :=
  tgo_d1_empty m hm _ _ _ _ _ _ _

/-- Witness for C3 on two coins of `fiveBoard` with a fresh memo. -/
theorem c3_empty_memo_depth_one_transparent_witness :
    (traverse_graph_with_nn (fiveCoins.getD 0 dummyCoin)
        [fiveCoins.getD 1 dummyCoin, fiveCoins.getD 4 dummyCoin]
        (some ⟨5, 32, []⟩) 1 ⊤).1 =
      (traverse_graph_with_nn (fiveCoins.getD 0 dummyCoin)
        [fiveCoins.getD 1 dummyCoin, fiveCoins.getD 4 dummyCoin]
        none 1 ⊤).1 :=
  c3_empty_memo_depth_one_transparent (fiveCoins.getD 0 dummyCoin)
    [fiveCoins.getD 1 dummyCoin, fiveCoins.getD 4 dummyCoin] ⊤ ⟨5, 32, []⟩ rfl
/-! ## C6: cached distances are symmetric -/

/-- Row-major (lexicographic) order on cells. -/
def cLt (x y : Cell) : Prop := x.1 < y.1 ∨ (x.1 = y.1 ∧ x.2 < y.2)

theorem cLt_ne {x y : Cell} (h : cLt x y) : x ≠ y := by
  rcases h with h | ⟨h1, h2⟩ <;> intro he <;> subst he <;> omega

/-- Scanning one row preserves lexicographic ordering and fresh (empty)
distance caches, and only appends coins of that row. -/
theorem scanRow_inv (r : ℕ) :
    ∀ (l : List (ℕ × Char)) (acc : List Coin),
      List.Pairwise (fun p q => p.1 < q.1) l →
      (∀ c ∈ acc, ∀ q ∈ l, cLt c.coords ((r : ℤ), (q.1 : ℤ))) →
      List.Pairwise (fun c d => cLt c.coords d.coords) acc →
      (∀ c ∈ acc, c.step_distance = fun _ => 0) →
      List.Pairwise (fun c d => cLt c.coords d.coords) (l.foldl (scanCell r) acc) ∧
        (∀ c ∈ l.foldl (scanCell r) acc, c.step_distance = fun _ => 0) ∧
        (∀ c ∈ l.foldl (scanCell r) acc,
          c ∈ acc ∨ ∃ q ∈ l, c.coords = ((r : ℤ), (q.1 : ℤ))) := by
  intro l
  induction l with
  | nil => intro acc _ _ hpw hdict; exact ⟨hpw, hdict, fun c hc => Or.inl hc⟩
  | cons q l ih =>
      intro acc hidx hbound hpw hdict
      simp only [List.foldl_cons]
      by_cases hq : q.2 = '*'
      · have hstep : scanCell r acc q =
            acc ++ [⟨((r : ℤ), (q.1 : ℤ)), acc.length, fun _ => 0⟩] := by
          simp [scanCell, hq]
        rw [hstep]
        have hbound' : ∀ c ∈ acc ++ [(⟨((r : ℤ), (q.1 : ℤ)), acc.length,
            fun _ => 0⟩ : Coin)], ∀ p ∈ l, cLt c.coords ((r : ℤ), (p.1 : ℤ)) := by
          intro c hc p hp
          rcases List.mem_append.mp hc with hc | hc
          · exact hbound c hc p (List.mem_cons_of_mem _ hp)
          · rcases List.mem_singleton.mp hc with rfl
            have : q.1 < p.1 := (List.pairwise_cons.mp hidx).1 p hp
            right
            constructor
            · rfl
            · dsimp only
              exact_mod_cast this
        have hpw' : List.Pairwise (fun c d => cLt c.coords d.coords)
            (acc ++ [(⟨((r : ℤ), (q.1 : ℤ)), acc.length, fun _ => 0⟩ : Coin)]) := by
          rw [List.pairwise_append]
          refine ⟨hpw, List.pairwise_singleton _ _, ?_⟩
          intro c hc d hd
          rcases List.mem_singleton.mp hd with rfl
          exact hbound c hc q (List.mem_cons_self _ _)
        have hdict' : ∀ c ∈ acc ++ [(⟨((r : ℤ), (q.1 : ℤ)), acc.length,
            fun _ => 0⟩ : Coin)], c.step_distance = fun _ => 0 := by
          intro c hc
          rcases List.mem_append.mp hc with hc | hc
          · exact hdict c hc
          · rcases List.mem_singleton.mp hc with rfl; rfl
        obtain ⟨h1, h2, h3⟩ := ih _ (List.pairwise_cons.mp hidx).2 hbound' hpw' hdict'
        refine ⟨h1, h2, ?_⟩
        intro c hc
        rcases h3 c hc with hin | ⟨p, hp, hcp⟩
        · rcases List.mem_append.mp hin with hin | hin
          · exact Or.inl hin
          · rcases List.mem_singleton.mp hin with rfl
            exact Or.inr ⟨q, List.mem_cons_self _ _, rfl⟩
        · exact Or.inr ⟨p, List.mem_cons_of_mem _ hp, hcp⟩
      · have hstep : scanCell r acc q = acc := by simp [scanCell, hq]
        rw [hstep]
        obtain ⟨h1, h2, h3⟩ := ih _ (List.pairwise_cons.mp hidx).2
          (fun c hc p hp => hbound c hc p (List.mem_cons_of_mem _ hp)) hpw hdict
        refine ⟨h1, h2, ?_⟩
        intro c hc
        rcases h3 c hc with hin | ⟨p, hp, hcp⟩
        · exact Or.inl hin
        · exact Or.inr ⟨p, List.mem_cons_of_mem _ hp, hcp⟩

/-- Indices of `enum` are strictly increasing. -/
theorem enum_idx_pairwise {α : Type} (l : List α) :
    List.Pairwise (fun (p q : ℕ × α) => p.1 < q.1) l.enum := by
  have h := List.pairwise_lt_range l.length
  have hmap := List.enum_map_fst l
  rw [← hmap] at h
  exact (List.pairwise_map.mp h)

/-- The full scan produces lexicographically sorted coins with fresh
distance caches. -/
theorem scanCoins_inv (board : Board) :
    List.Pairwise (fun c d => cLt c.coords d.coords) (scanCoins board) ∧
      ∀ c ∈ scanCoins board, c.step_distance = fun _ => 0 := by
  have main : ∀ (rows : List (ℕ × List Char)) (acc : List Coin),
      List.Pairwise (fun p q => p.1 < q.1) rows →
      (∀ c ∈ acc, ∀ rw ∈ rows, c.coords.1 < (rw.1 : ℤ)) →
      List.Pairwise (fun c d => cLt c.coords d.coords) acc →
      (∀ c ∈ acc, c.step_distance = fun _ => 0) →
      List.Pairwise (fun c d => cLt c.coords d.coords)
          (rows.foldl (fun acc row => row.2.enum.foldl (scanCell row.1) acc) acc) ∧
        (∀ c ∈ rows.foldl (fun acc row => row.2.enum.foldl (scanCell row.1) acc) acc,
          c.step_distance = fun _ => 0) ∧
        (∀ c ∈ rows.foldl (fun acc row => row.2.enum.foldl (scanCell row.1) acc) acc,
          c ∈ acc ∨ ∃ rw ∈ rows, c.coords.1 = (rw.1 : ℤ)) := by
    intro rows
    induction rows with
    | nil => intro acc _ _ hpw hdict; exact ⟨hpw, hdict, fun c hc => Or.inl hc⟩
    | cons rw rows ih =>
        intro acc hidx hbound hpw hdict
        simp only [List.foldl_cons]
        obtain ⟨h1, h2, h3⟩ := scanRow_inv rw.1 rw.2.enum acc
          (enum_idx_pairwise _)
          (fun c hc q _ => Or.inl (hbound c hc rw (List.mem_cons_self _ _)))
          hpw hdict
        have hbound' : ∀ c ∈ rw.2.enum.foldl (scanCell rw.1) acc,
            ∀ rw' ∈ rows, c.coords.1 < (rw'.1 : ℤ) := by
          intro c hc rw' hrw'
          have hlt : rw.1 < rw'.1 := (List.pairwise_cons.mp hidx).1 rw' hrw'
          rcases h3 c hc with hin | ⟨q, _, hcq⟩
          · exact lt_trans (hbound c hin rw (List.mem_cons_self _ _))
              (by exact_mod_cast hlt)
          · rw [hcq]
            dsimp only
            exact_mod_cast hlt
        obtain ⟨g1, g2, g3⟩ := ih _ (List.pairwise_cons.mp hidx).2 hbound' h1 h2
        refine ⟨g1, g2, ?_⟩
        intro c hc
        rcases g3 c hc with hin | ⟨rw', hrw', hc'⟩
        · rcases h3 c hin with hin' | ⟨q, _, hcq⟩
          · exact Or.inl hin'
          · exact Or.inr ⟨rw, List.mem_cons_self _ _, by rw [hcq]⟩
        · exact Or.inr ⟨rw', List.mem_cons_of_mem _ hrw', hc'⟩
  obtain ⟨h1, h2, _⟩ := main board.enum [] (enum_idx_pairwise _)
    (by simp) List.Pairwise.nil (by simp)
  exact ⟨h1, h2⟩

@[simp] theorem coords_set_step_distance (c : Coin) (k : Cell) (d : ℕ) :
    (c.set_step_distance k d).coords = c.coords := rfl

@[simp] theorem sd_set_step_distance (c : Coin) (k x : Cell) (d : ℕ) :
    (c.set_step_distance k d).step_distance x =
      if x = k then d else c.step_distance x := rfl

/-- Symmetry of all cached distances within a coin list. -/
def SymL (l : List Coin) : Prop :=
  ∀ a ∈ l, ∀ b ∈ l, a.step_distance b.coords = b.step_distance a.coords

/-- The inner distance loop preserves symmetry of the caches; coins keep
their coordinates and all keys outside the list's coordinates. -/
theorem scdInner_sym {board : Board} :
    ∀ (rest : List Coin) (a a' : Coin) (rest' : List Coin),
      List.Pairwise (fun u v => u.coords ≠ v.coords) (a :: rest) →
      SymL (a :: rest) →
      scdInner board a rest = .ok (a', rest') →
      SymL (a' :: rest') ∧ a'.coords = a.coords ∧
        rest'.map (·.coords) = rest.map (·.coords) ∧
        (∀ k, k ∉ (a :: rest).map (·.coords) →
          a'.step_distance k = a.step_distance k) ∧
        (∀ y ∈ rest', ∃ x ∈ rest, y.coords = x.coords ∧
          ∀ k, k ∉ (a :: rest).map (·.coords) →
            y.step_distance k = x.step_distance k) := by
  intro rest
  induction rest with
  | nil =>
      intro a a' rest' _ hsym h
      simp only [scdInner] at h
      cases h
      exact ⟨hsym, rfl, rfl, fun k _ => rfl, by simp⟩
  | cons b rest ih =>
      intro a a' rest' hpw hsym h
      simp only [scdInner] at h
      rcases hd : find_path_len_with_a_star a.coords b.coords board with e | d
      · rw [hd] at h; exact absurd h (by simp)
      · rw [hd] at h
        dsimp only at h
        rcases hin : scdInner board (a.set_step_distance b.coords d) rest
          with e | ⟨a2, rest2⟩
        · rw [hin] at h; exact absurd h (by simp)
        · rw [hin] at h
          have hh := Except.ok.inj h
          have ha'eq : a' = a2 := (congrArg Prod.fst hh).symm
          have hrest'eq : rest' =
              b.set_step_distance a.coords d :: rest2 :=
            (congrArg Prod.snd hh).symm
          subst ha'eq
          subst hrest'eq
          have hab : a.coords ≠ b.coords :=
            (List.pairwise_cons.mp hpw).1 b (List.mem_cons_self _ _)
          have hax : ∀ x ∈ rest, a.coords ≠ x.coords :=
            fun x hx => (List.pairwise_cons.mp hpw).1 x (List.mem_cons_of_mem _ hx)
          have hbx : ∀ x ∈ rest, b.coords ≠ x.coords :=
            fun x hx => (List.pairwise_cons.mp
              (List.pairwise_cons.mp hpw).2).1 x hx
          have hbnotin : b.coords ∉ (a.set_step_distance b.coords d ::
              rest).map (·.coords) := by
            intro hmem
            rcases List.mem_map.mp hmem with ⟨x, hx, hxe⟩
            rcases List.mem_cons.mp hx with rfl | hx'
            · exact hab (by simpa using hxe)
            · exact hbx x hx' hxe.symm
          have hsym1 : SymL (a.set_step_distance b.coords d :: rest) := by
            intro u hu v hv
            rcases List.mem_cons.mp hu with rfl | hu' <;>
              rcases List.mem_cons.mp hv with rfl | hv'
            · rfl
            · have hvb : v.coords ≠ b.coords := fun he => hbx v hv' he.symm
              simp only [coords_set_step_distance, sd_set_step_distance,
                if_neg hvb]
              exact hsym a (List.mem_cons_self _ _) v
                (List.mem_cons_of_mem _ (List.mem_cons_of_mem _ hv'))
            · have hub : u.coords ≠ b.coords := fun he => hbx u hu' he.symm
              simp only [coords_set_step_distance, sd_set_step_distance,
                if_neg hub]
              exact hsym u (List.mem_cons_of_mem _ (List.mem_cons_of_mem _ hu'))
                a (List.mem_cons_self _ _)
            · exact hsym u (List.mem_cons_of_mem _ (List.mem_cons_of_mem _ hu'))
                v (List.mem_cons_of_mem _ (List.mem_cons_of_mem _ hv'))
          have hpw1 : List.Pairwise (fun u v => u.coords ≠ v.coords)
              (a.set_step_distance b.coords d :: rest) := by
            rw [List.pairwise_cons]
            refine ⟨?_, (List.pairwise_cons.mp
              (List.pairwise_cons.mp hpw).2).2⟩
            intro x hx
            simpa using hax x hx
          obtain ⟨hsym2, hcoordsA, hmap2, hoffA, hcorr⟩ :=
            ih (a.set_step_distance b.coords d) a' rest2 hpw1 hsym1 hin
          have hcoordsA' : a'.coords = a.coords := hcoordsA
          have hbd : a'.step_distance b.coords = d := by
            rw [hoffA b.coords hbnotin]
            simp
          refine ⟨?_, hcoordsA', ?_, ?_, ?_⟩
          · -- symmetry of a' :: b.set a.coords d :: rest2
            intro u hu v hv
            rcases List.mem_cons.mp hu with rfl | hu'
            · rcases List.mem_cons.mp hv with rfl | hv'
              · rfl
              · rcases List.mem_cons.mp hv' with rfl | hv2
                · simp [coords_set_step_distance, sd_set_step_distance,
                    hcoordsA', hbd]
                · exact hsym2 u (List.mem_cons_self _ _) v
                    (List.mem_cons_of_mem _ hv2)
            · rcases List.mem_cons.mp hu' with rfl | hu2
              · rcases List.mem_cons.mp hv with rfl | hv'
                · simp [coords_set_step_distance, sd_set_step_distance,
                    hcoordsA', hbd]
                · rcases List.mem_cons.mp hv' with rfl | hv2
                  · rfl
                  · obtain ⟨x, hx, hxc, hxk⟩ := hcorr v hv2
                    have hxb : x.coords ≠ a.coords := fun he => hax x hx he.symm
                    have h1 : v.step_distance b.coords =
                        x.step_distance b.coords := hxk b.coords hbnotin
                    simp only [sd_set_step_distance, coords_set_step_distance,
                      hxc]
                    rw [if_neg hxb, h1]
                    exact (hsym b (List.mem_cons_of_mem _ (List.mem_cons_self _ _))
                      x (List.mem_cons_of_mem _ (List.mem_cons_of_mem _ hx))).symm.symm
              · rcases List.mem_cons.mp hv with rfl | hv'
                · exact hsym2 u (List.mem_cons_of_mem _ hu2) v
                    (List.mem_cons_self _ _)
                · rcases List.mem_cons.mp hv' with rfl | hv2
                  · obtain ⟨x, hx, hxc, hxk⟩ := hcorr u hu2
                    have hxb : x.coords ≠ a.coords := fun he => hax x hx he.symm
                    have h1 : u.step_distance b.coords =
                        x.step_distance b.coords := hxk b.coords hbnotin
                    simp only [sd_set_step_distance, coords_set_step_distance,
                      hxc]
                    rw [if_neg hxb, h1]
                    exact hsym x (List.mem_cons_of_mem _ (List.mem_cons_of_mem _ hx))
                      b (List.mem_cons_of_mem _ (List.mem_cons_self _ _))
                  · exact hsym2 u (List.mem_cons_of_mem _ hu2) v
                      (List.mem_cons_of_mem _ hv2)
          · simp only [List.map_cons, coords_set_step_distance, hmap2]
          · intro k hk
            have hka : k ≠ a.coords := fun he => hk
              (List.mem_map.mpr ⟨a, List.mem_cons_self _ _, he.symm⟩)
            have hkb : k ≠ b.coords := fun he => hk (List.mem_map.mpr
              ⟨b, List.mem_cons_of_mem _ (List.mem_cons_self _ _), he.symm⟩)
            have hk1 : k ∉ (a.set_step_distance b.coords d :: rest).map
                (·.coords) := by
              intro hmem
              rcases List.mem_map.mp hmem with ⟨x, hx, hxe⟩
              apply hk
              rcases List.mem_cons.mp hx with rfl | hx'
              · exact List.mem_map.mpr ⟨a, List.mem_cons_self _ _,
                  by simpa using hxe⟩
              · exact List.mem_map.mpr ⟨x, List.mem_cons_of_mem _
                  (List.mem_cons_of_mem _ hx'), hxe⟩
            rw [hoffA k hk1]
            simp [hkb]
          · intro y hy
            rcases List.mem_cons.mp hy with rfl | hy'
            · refine ⟨b, List.mem_cons_self _ _, rfl, ?_⟩
              intro k hk
              have hka : k ≠ a.coords := fun he => hk
                (List.mem_map.mpr ⟨a, List.mem_cons_self _ _, he.symm⟩)
              simp [hka]
            · obtain ⟨x, hx, hxc, hxk⟩ := hcorr y hy'
              refine ⟨x, List.mem_cons_of_mem _ hx, hxc, ?_⟩
              intro k hk
              refine hxk k ?_
              intro hmem
              rcases List.mem_map.mp hmem with ⟨x', hx', hxe⟩
              apply hk
              rcases List.mem_cons.mp hx' with rfl | hx2
              · exact List.mem_map.mpr ⟨a, List.mem_cons_self _ _,
                  by simpa using hxe⟩
              · exact List.mem_map.mpr ⟨x', List.mem_cons_of_mem _
                  (List.mem_cons_of_mem _ hx2), hxe⟩

/-- The outer distance loop preserves symmetry. -/
theorem scdOuter_sym {board : Board} :
    ∀ (fuel : ℕ) (l l' : List Coin),
      List.Pairwise (fun u v => u.coords ≠ v.coords) l →
      SymL l →
      scdOuter board fuel l = .ok l' →
      SymL l' ∧ l'.map (·.coords) = l.map (·.coords) ∧
        (∀ y ∈ l', ∃ x ∈ l, y.coords = x.coords ∧
          ∀ k, k ∉ l.map (·.coords) →
            y.step_distance k = x.step_distance k) := by
  intro fuel
  induction fuel with
  | zero =>
      intro l l' hpw hsym h
      cases l with
      | nil =>
          simp only [scdOuter] at h
          cases h
          exact ⟨hsym, rfl, by simp⟩
      | cons a rest => exact absurd h (by simp [scdOuter])
  | succ fuel ih =>
      intro l l' hpw hsym h
      cases l with
      | nil =>
          simp only [scdOuter] at h
          cases h
          exact ⟨hsym, rfl, by simp⟩
      | cons a rest =>
          simp only [scdOuter] at h
          rcases hin : scdInner board a rest with e | ⟨a', rest'⟩
          · rw [hin] at h; exact absurd h (by simp)
          · rw [hin] at h
            dsimp only at h
            rcases hout : scdOuter board fuel rest' with e | rest''
            · rw [hout] at h; exact absurd h (by simp)
            · rw [hout] at h
              have hh := Except.ok.inj h
              subst hh
              obtain ⟨hsymI, hcA, hmapI, hoffA, hcorrI⟩ :=
                scdInner_sym rest a a' rest' hpw hsym hin
              have hpwrest : List.Pairwise (fun u v => u.coords ≠ v.coords)
                  rest := (List.pairwise_cons.mp hpw).2
              have hpwrest' : List.Pairwise (fun u v => u.coords ≠ v.coords)
                  rest' := by
                have h1 : List.Pairwise Ne (rest'.map (·.coords)) := by
                  rw [hmapI]
                  exact (List.pairwise_map.mpr hpwrest).imp (fun hne => hne)
                have := List.pairwise_map.mp h1
                exact this
              have hsymrest' : SymL rest' := fun u hu v hv =>
                hsymI u (List.mem_cons_of_mem _ hu) v (List.mem_cons_of_mem _ hv)
              obtain ⟨hsymO, hmapO, hcorrO⟩ := ih rest' rest'' hpwrest' hsymrest' hout
              have haNotRest : a.coords ∉ rest'.map (·.coords) := by
                rw [hmapI]
                intro hmem
                rcases List.mem_map.mp hmem with ⟨x, hx, hxe⟩
                exact (List.pairwise_cons.mp hpw).1 x hx hxe.symm
              refine ⟨?_, ?_, ?_⟩
              · intro u hu v hv
                rcases List.mem_cons.mp hu with rfl | hu'
                · rcases List.mem_cons.mp hv with rfl | hv'
                  · rfl
                  · -- (a', y'') with y'' ∈ rest''
                    obtain ⟨x', hx', hxc, hxk⟩ := hcorrO v hv'
                    have h1 : v.step_distance u.coords =
                        x'.step_distance u.coords := by
                      refine hxk u.coords ?_
                      rw [hcA]
                      exact haNotRest
                    rw [h1, hxc]
                    exact hsymI u (List.mem_cons_self _ _) x'
                      (List.mem_cons_of_mem _ hx')
                · rcases List.mem_cons.mp hv with rfl | hv'
                  · obtain ⟨x', hx', hxc, hxk⟩ := hcorrO u hu'
                    have h1 : u.step_distance v.coords =
                        x'.step_distance v.coords := by
                      refine hxk v.coords ?_
                      rw [hcA]
                      exact haNotRest
                    rw [h1, hxc]
                    exact hsymI x' (List.mem_cons_of_mem _ hx') v
                      (List.mem_cons_self _ _)
                  · exact hsymO u hu' v hv'
              · simp only [List.map_cons, hcA, hmapO, hmapI]
              · intro y hy
                rcases List.mem_cons.mp hy with rfl | hy'
                · exact ⟨a, List.mem_cons_self _ _, hcA, fun k hk =>
                    hoffA k hk⟩
                · obtain ⟨x', hx', hxc, hxk⟩ := hcorrO y hy'
                  obtain ⟨x, hx, hxc2, hxk2⟩ := hcorrI x' hx'
                  refine ⟨x, List.mem_cons_of_mem _ hx, hxc.trans hxc2, ?_⟩
                  intro k hk
                  have hkrest' : k ∉ rest'.map (·.coords) := by
                    rw [hmapI]
                    intro hmem
                    rcases List.mem_map.mp hmem with ⟨x2, hx2, hxe⟩
                    exact hk (List.mem_map.mpr ⟨x2,
                      List.mem_cons_of_mem _ hx2, hxe⟩)
                  rw [hxk k hkrest', hxk2 k hk]

/-- C6: after `set_coin_distances` populates the caches of the scanned
coins, every pair of resulting coins carries symmetric distances:
`a`'s cached distance at `b`'s coordinates equals `b`'s cached distance at
`a`'s coordinates. -/
theorem c6_distances_symmetric (board : Board) (coins' : List Coin)
    (h : set_coin_distances board (scanCoins board) = .ok coins') :
    ∀ a ∈ coins', ∀ b ∈ coins',
      a.get_step_distance b.coords = b.get_step_distance a.coords := by
  obtain ⟨hpwLex, hdict⟩ := scanCoins_inv board
  have hpw : List.Pairwise (fun u v => u.coords ≠ v.coords)
      (scanCoins board) := hpwLex.imp (fun hlt => cLt_ne hlt)
  have hsym : SymL (scanCoins board) := by
    intro a ha b hb
    rw [hdict a ha, hdict b hb]
  obtain ⟨hsym', _, _⟩ := scdOuter_sym _ _ _ hpw hsym h
  exact hsym'

/-- The corridor's two coins with populated distances. -/
def corridorCoins : List Coin :=
  match set_coin_distances [['*', '.', '*']] (scanCoins [['*', '.', '*']]) with
  | .ok l => l
  | .error _ => []

/-- Witness for C6 on the short corridor board. -/
theorem c6_distances_symmetric_witness :
    (corridorCoins.getD 0 dummyCoin).get_step_distance
        (corridorCoins.getD 1 dummyCoin).coords =
      (corridorCoins.getD 1 dummyCoin).get_step_distance
        (corridorCoins.getD 0 dummyCoin).coords :=
  c6_distances_symmetric [['*', '.', '*']] corridorCoins rfl
    _ (getD_mem (by decide)) _ (getD_mem (by decide))
/-! ## C7: the straight corridor -/

/-- One row: a coin, `L` free cells, a coin. -/
def corridorBoard (L : ℕ) : Board :=
  [['*'] ++ List.replicate L '.' ++ ['*']]

theorem corridor_row_len (L : ℕ) :
    ((corridorBoard L).headD []).length = L + 2 := by
  simp [corridorBoard]

theorem repl_getD (L : ℕ) : ∀ (s : ℕ),
    (List.replicate L '.' ++ ['*']).getD s '#' =
      if s < L then '.' else if s = L then '*' else '#' := by
  induction L with
  | zero =>
      intro s
      cases s with
      | zero => rfl
      | succ s => simp [List.getD]
  | succ L ih =>
      intro s
      cases s with
      | zero => simp [List.replicate_succ]
      | succ s =>
          simp only [List.replicate_succ, List.cons_append, List.getD_cons_succ,
            ih s]
          split_ifs <;> first | rfl | omega | simp_all

theorem corridor_cell (L : ℕ) (j : ℕ) :
    boardGet (corridorBoard L) 0 (j : ℤ) =
      if j = 0 then '*' else if j - 1 < L then '.'
        else if j = L + 1 then '*' else '#' := by
  have hbg : boardGet (corridorBoard L) 0 (j : ℤ) =
      (('*' :: (List.replicate L '.' ++ ['*'])).getD j '#') := by
    simp [boardGet, corridorBoard]
  rw [hbg]
  cases j with
  | zero => simp
  | succ s =>
      simp only [List.getD_cons_succ, repl_getD L s]
      split_ifs <;> first | rfl | omega | simp_all

theorem corridor_cell_not_wall (L : ℕ) (j : ℕ) (h : j ≤ L + 1) :
    ¬ boardGet (corridorBoard L) 0 (j : ℤ) = '#' := by
  rw [corridor_cell]
  by_cases h0 : j = 0
  · simp [h0]
  · rw [if_neg h0]
    by_cases h1 : j - 1 < L
    · simp [h1]
    · rw [if_neg h1, if_pos (by omega)]
      simp

theorem ssort_single (key : Cell → ℤ) (x : Cell) : ssort key [x] = [x] := rfl

theorem ssort_pair (key : Cell → ℤ) (x y : Cell) (h : key x ≤ key y) :
    ssort key [x, y] = [x, y] := by
  simp [ssort, insSorted, h]


/-- Moves available from the left coin of the corridor. -/
theorem corridor_movements_zero (L : ℕ) :
    get_movements ((0 : ℤ), (0 : ℤ)) (corridorBoard L) = [(0, 1)] := by
  have hc : boardGet (corridorBoard L) 0 ((0 : ℤ) + 1) ≠ '#' := by
    have := corridor_cell_not_wall L 1 (by omega)
    simpa using this
  have hlen : ((corridorBoard L).headD []).length = L + 2 := corridor_row_len L
  have hblen : (corridorBoard L).length = 1 := rfl
  simp only [get_movements, List.foldl_cons, List.foldl_nil, hblen, hlen]
  push_cast
  norm_num
  exact ⟨by omega, by simpa using hc⟩

theorem corridor_movements_mid (L k : ℕ) (h1 : 1 ≤ k) (h2 : k ≤ L) :
    get_movements ((0 : ℤ), (k : ℤ)) (corridorBoard L) =
      [(0, (k : ℤ) + 1), (0, (k : ℤ) - 1)] := by
  have hc1 : boardGet (corridorBoard L) 0 ((k : ℤ) + 1) ≠ '#' := by
    have := corridor_cell_not_wall L (k + 1) (by omega)
    simpa [Nat.cast_add] using this
  have hc2 : boardGet (corridorBoard L) 0 ((k : ℤ) + -1) ≠ '#' := by
    have := corridor_cell_not_wall L (k - 1) (by omega)
    have hcast : (((k - 1 : ℕ) : ℤ)) = (k : ℤ) + -1 := by omega
    rwa [hcast] at this
  have hlen : ((corridorBoard L).headD []).length = L + 2 := corridor_row_len L
  have hblen : (corridorBoard L).length = 1 := rfl
  simp only [get_movements, List.foldl_cons, List.foldl_nil, hblen, hlen]
  push_cast
  norm_num
  rw [if_neg, if_neg]
  · rw [List.singleton_append]
    have : (k : ℤ) + -1 = (k : ℤ) - 1 := by ring
    rw [this]
  · intro hor
    rcases hor with h | h | h
    · omega
    · omega
    · exact hc1 h
  · intro hor
    rcases hor with h | h | h
    · omega
    · omega
    · exact hc2 h


/-- Evaluating the A* write-and-push fold for a single movement. -/
theorem astar_fold1 (close' o : List Cell) (nm : Cell → ℕ) (nmd : ℕ)
    (m1 : Cell) (h1 : m1 ∉ close') (h1' : m1 ∉ o) :
    [m1].foldl
      (fun (p : (Cell → ℕ) × List Cell) m =>
        let g := fun c => if c = m then nmd else p.1 c
        if m ∈ close' ∨ m ∈ p.2 then (g, p.2) else (g, m :: p.2))
      (nm, o) =
      (fun c => if c = m1 then nmd else nm c, m1 :: o) := by
  simp only [List.foldl_cons, List.foldl_nil]
  have hm1 : ¬(m1 ∈ close' ∨ m1 ∈ o) := fun hor => hor.elim h1 h1'
  rw [if_neg hm1]

/-- Evaluating the A* write-and-push fold for two movements, the second of
which is already closed. -/
theorem astar_fold2 (close' o : List Cell) (nm : Cell → ℕ) (nmd : ℕ)
    (m1 m2 : Cell) (h1 : m1 ∉ close') (h1' : m1 ∉ o) (h2 : m2 ∈ close') :
    [m1, m2].foldl
      (fun (p : (Cell → ℕ) × List Cell) m =>
        let g := fun c => if c = m then nmd else p.1 c
        if m ∈ close' ∨ m ∈ p.2 then (g, p.2) else (g, m :: p.2))
      (nm, o) =
      (fun c => if c = m2 then nmd else if c = m1 then nmd else nm c,
        m1 :: o) := by
  simp only [List.foldl_cons, List.foldl_nil]
  have hm1 : ¬(m1 ∈ close' ∨ m1 ∈ o) := fun hor => hor.elim h1 h1'
  rw [if_neg hm1]
  rw [if_pos (Or.inl h2 : m2 ∈ close' ∨ m2 ∈ m1 :: o)]
/-- The A* loop walks straight down the corridor: from any intermediate
state at cell `k` it reaches the right coin and returns `L + 1`. -/
theorem corridor_loop (L : ℕ) :
    ∀ (d k : ℕ), k + d = L →
      ∀ (close : List Cell) (nm : Cell → ℕ),
        nm (0, (k : ℤ)) = k →
        (k ≠ 0 → ((0 : ℤ), (k : ℤ) - 1) ∈ close) →
        (∀ c ∈ close, c.2 < (k : ℤ)) →
        astarLoop (corridorBoard L) (0, (L : ℤ) + 1) (d + 3)
          [((0 : ℤ), (k : ℤ))] close nm = .ok (L + 1) := by
  intro d
  induction d with
  | zero =>
      intro k hk close nm hnm hprev hclose
      have hkL : k = L := by omega
      subst hkL
      rw [astarLoop]
      by_cases h0 : k = 0
      · subst h0
        simp only [Nat.cast_zero] at hnm ⊢
        rw [corridor_movements_zero 0]
        simp only [ssort_single]
        rw [if_pos (by norm_num), hnm]
      · have h1 : 1 ≤ k := by omega
        rw [corridor_movements_mid k k h1 le_rfl]
        have hkey : euclid_sq ((0 : ℤ), (k : ℤ) + 1) ((0 : ℤ), (k : ℤ) + 1) ≤
            euclid_sq ((0 : ℤ), (k : ℤ) + 1) ((0 : ℤ), (k : ℤ) - 1) := by
          simp only [euclid_sq]
          nlinarith [sq_nonneg ((k : ℤ) + 1 - ((k : ℤ) - 1))]
        rw [ssort_pair _ _ _ hkey]
        dsimp only
        rw [if_pos rfl, hnm]
  | succ d ih =>
      intro k hk close nm hnm hprev hclose
      have hkL : k < L := by omega
      rw [astarLoop]
      by_cases h0 : k = 0
      · subst h0
        simp only [Nat.cast_zero] at hnm hclose ⊢
        rw [corridor_movements_zero L]
        simp only [ssort_single]
        rw [if_neg (by
          intro he
          have h2 := congrArg Prod.snd he
          simp only at h2
          omega)]
        have hnotc : ((0 : ℤ), (1 : ℤ)) ∉ (((0 : ℤ), (0 : ℤ)) :: close) := by
          intro hmem
          rcases List.mem_cons.mp hmem with he | hmem'
          · have h2 := congrArg Prod.snd he
            norm_num at h2
          · have h2 := hclose _ hmem'
            norm_num at h2
        rw [astar_fold1 _ _ _ _ _ hnotc (by simp)]
        dsimp only
        apply ih 1 (by omega)
        · rw [if_pos (by norm_num), hnm]
        · intro _
          have he : ((0 : ℤ), ((1 : ℕ) : ℤ) - 1) = ((0 : ℤ), (0 : ℤ)) := by
            norm_num
          rw [he]
          exact List.mem_cons_self _ _
        · intro c hc
          rcases List.mem_cons.mp hc with rfl | hc'
          · norm_num
          · have h2 := hclose _ hc'
            push_cast
            omega
      · have h1 : 1 ≤ k := by omega
        rw [corridor_movements_mid L k h1 (by omega)]
        have hkey : euclid_sq ((0 : ℤ), (L : ℤ) + 1) ((0 : ℤ), (k : ℤ) + 1) ≤
            euclid_sq ((0 : ℤ), (L : ℤ) + 1) ((0 : ℤ), (k : ℤ) - 1) := by
          simp only [euclid_sq]
          nlinarith [(by exact_mod_cast hkL : (k : ℤ) < (L : ℤ))]
        rw [ssort_pair _ _ _ hkey]
        dsimp only
        rw [if_neg (by
          intro he
          have h2 := congrArg Prod.snd he
          simp only at h2
          omega)]
        have hnotc : ((0 : ℤ), (k : ℤ) + 1) ∉ (((0 : ℤ), (k : ℤ)) :: close) := by
          intro hmem
          rcases List.mem_cons.mp hmem with he | hmem'
          · have h2 := congrArg Prod.snd he
            simp only at h2
            omega
          · have h2 := hclose _ hmem'
            simp only at h2
            omega
        have hinc : ((0 : ℤ), (k : ℤ) - 1) ∈ (((0 : ℤ), (k : ℤ)) :: close) :=
          List.mem_cons_of_mem _ (hprev h0)
        rw [astar_fold2 _ _ _ _ _ _ hnotc (by simp) hinc]
        dsimp only
        apply ih (k + 1) (by omega)
        · rw [if_neg (by
            intro he
            have h2 := congrArg Prod.snd he
            push_cast at h2
            omega)]
          rw [if_pos (by
            refine congrArg (fun z => ((0 : ℤ), z)) ?_
            push_cast
            ring)]
          rw [hnm]
        · intro _
          have he : ((0 : ℤ), ((k + 1 : ℕ) : ℤ) - 1) = ((0 : ℤ), (k : ℤ)) := by
            refine congrArg (fun z => ((0 : ℤ), z)) ?_
            push_cast
            ring
          rw [he]
          exact List.mem_cons_self _ _
        · intro c hc
          rcases List.mem_cons.mp hc with rfl | hc'
          · push_cast
            omega
          · have h2 := hclose _ hc'
            push_cast
            omega

/-- The full oracle run on the corridor returns `L + 1`. -/
theorem corridor_astar (L : ℕ) :
    find_path_len_with_a_star (0, 0) ((0 : ℤ), (L : ℤ) + 1) (corridorBoard L) =
      .ok (L + 1) := by
  unfold find_path_len_with_a_star
  have hfuel : (corridorBoard L).length * ((corridorBoard L).headD []).length
      + 1 = L + 3 := by
    rw [show (corridorBoard L).length = 1 from rfl, corridor_row_len L]
    omega
  rw [hfuel]
  have h := corridor_loop L L 0 (by omega) []
    (fun c => if c = ((0 : ℤ), (0 : ℤ)) then 0 else 0)
    (by norm_num) (by intro h; exact absurd rfl h) (by simp)
  simpa using h

theorem enumFromAppend {α : Type} (l1 l2 : List α) : ∀ (n : ℕ),
    (l1 ++ l2).enumFrom n = l1.enumFrom n ++ l2.enumFrom (n + l1.length) := by
  induction l1 with
  | nil => intro n; simp [List.enumFrom]
  | cons x xs ih =>
      intro n
      simp only [List.cons_append, List.enumFrom, List.length_cons, List.append_eq]
      rw [ih (n + 1)]
      have he : n + 1 + xs.length = n + (xs.length + 1) := by omega
      rw [he]

/-- Scanning over free cells appends no coin. -/
theorem scan_skip_dots (r m : ℕ) : ∀ (n : ℕ) (acc : List Coin),
    ((List.replicate m '.').enumFrom n).foldl (scanCell r) acc = acc := by
  induction m with
  | zero => intro n acc; rfl
  | succ m ih =>
      intro n acc
      simp only [List.replicate_succ, List.enumFrom, List.foldl_cons]
      rw [show scanCell r acc (n, '.') = acc from by simp [scanCell]]
      exact ih (n + 1) acc

/-- The coin scan of the corridor: two coins, indices 0 and 1, fresh
caches. -/
theorem scan_corridor (L : ℕ) :
    scanCoins (corridorBoard L) =
      [⟨(0, 0), 0, fun _ => 0⟩,
        ⟨((0 : ℤ), ((L + 1 : ℕ) : ℤ)), 1, fun _ => 0⟩] := by
  show (((['*'] ++ List.replicate L '.' ++ ['*']).enum).foldl (scanCell 0) [])
      = _
  rw [show (['*'] ++ List.replicate L '.' ++ ['*']) =
    '*' :: (List.replicate L '.' ++ ['*']) from rfl]
  rw [show ('*' :: (List.replicate L '.' ++ ['*'])).enum =
    (0, '*') :: (List.replicate L '.' ++ ['*']).enumFrom 1 from rfl]
  rw [List.foldl_cons]
  rw [show scanCell 0 [] (0, '*') = [⟨(0, 0), 0, fun _ => 0⟩] from by
    simp [scanCell]]
  rw [enumFromAppend, List.foldl_append, scan_skip_dots]
  simp only [List.length_replicate, List.enumFrom, List.foldl_cons,
    List.foldl_nil]
  rw [show scanCell 0 [⟨(0, 0), 0, fun _ => 0⟩] (1 + L, '*') =
    [⟨(0, 0), 0, fun _ => 0⟩, ⟨((0 : ℤ), ((1 + L : ℕ) : ℤ)), 1, fun _ => 0⟩]
    from by simp [scanCell]]
  have : ((1 + L : ℕ) : ℤ) = ((L + 1 : ℕ) : ℤ) := by push_cast; ring
  rw [this]

theorem corridor_astar_cast (L : ℕ) :
    find_path_len_with_a_star (0, 0) ((0 : ℤ), ((L + 1 : ℕ) : ℤ))
      (corridorBoard L) = .ok (L + 1) := by
  have hc : ((L + 1 : ℕ) : ℤ) = (L : ℤ) + 1 := by push_cast; ring
  rw [hc]
  exact corridor_astar L

/-- The two corridor coins after the oracle pass. -/
def corridorC0 (L : ℕ) : Coin :=
  Coin.set_step_distance ⟨(0, 0), 0, fun _ => 0⟩
    ((0 : ℤ), ((L + 1 : ℕ) : ℤ)) (L + 1)

def corridorC1 (L : ℕ) : Coin :=
  Coin.set_step_distance ⟨((0 : ℤ), ((L + 1 : ℕ) : ℤ)), 1, fun _ => 0⟩
    (0, 0) (L + 1)

/-- Populating the corridor's two coins caches distance `L + 1` on both. -/
theorem scd_corridor (L : ℕ) :
    set_coin_distances (corridorBoard L) (scanCoins (corridorBoard L)) =
      .ok [corridorC0 L, corridorC1 L] := by
  unfold corridorC0 corridorC1
  unfold set_coin_distances
  rw [scan_corridor]
  show scdOuter (corridorBoard L) 2 _ = _
  rw [scdOuter]
  rw [show scdInner (corridorBoard L) ⟨(0, 0), 0, fun _ => 0⟩
      [⟨((0 : ℤ), ((L + 1 : ℕ) : ℤ)), 1, fun _ => 0⟩] =
      .ok (Coin.set_step_distance ⟨(0, 0), 0, fun _ => 0⟩
          ((0 : ℤ), ((L + 1 : ℕ) : ℤ)) (L + 1),
        [Coin.set_step_distance ⟨((0 : ℤ), ((L + 1 : ℕ) : ℤ)), 1, fun _ => 0⟩
          (0, 0) (L + 1)]) from by
    rw [scdInner]
    rw [corridor_astar_cast L]
    rfl]
  rfl

/-- A traverse call with exactly one remaining coin, an unbounded budget
and a missing memo entry: it returns that coin's direct distance and
records it. -/
theorem tgo_single_miss (depth : ℕ) (cur r : Coin) (m : Memo)
    (hmiss : m.get cur [r] = none) :
    traverse_graph_with_nn cur [r] (some m) depth ⊤ =
      ((r.get_step_distance cur.coords : ℕ∞),
        some (m.set cur [r] (r.get_step_distance cur.coords : ℕ∞))) := by
  have hc1 : ¬ (⊤ : ℕ∞) ≤ ((r.get_step_distance cur.coords : ℕ) : ℕ∞) := by
    simp [top_le_iff]
  have hc2 : ¬(1 < depth ∧ 1 < ([r] : List Coin).length) := by simp
  have hscan : nnScan (fun b' node rem' mo =>
        tgo (depth + 1) b' (depth - 1) node rem' mo 0 node [])
      ⊤ depth cur [r] (some m) =
      ⟨0, (r.get_step_distance cur.coords : ℕ∞),
        (r.get_step_distance cur.coords : ℕ∞), some m⟩ := by
    unfold nnScan
    simp only [List.enum, List.enumFrom, List.foldl_cons, List.foldl_nil,
      if_neg hc1, if_neg hc2, add_zero]
    rw [if_pos (ENat.coe_lt_top _)]
  show tgo (depth + 1 + 1) ⊤ depth cur [r] (some m) 0 cur [] = _
  rw [tgo]
  simp only [hmiss]
  rw [hscan]
  show tgo (depth + 1) ⊤ depth r [] (some m)
      (0 + (r.get_step_distance cur.coords : ℕ∞)) cur [r] = _
  rw [tgo]
  rw [zero_add]

deriving instance DecidableEq for Except

/-- Memo state after the idx-0 start of the corridor pair. -/
def corridorM1 (L : ℕ) : Memo :=
  Memo.set ⟨2, 1 <<< 2, []⟩ (corridorC0 L) [corridorC1 L] ((L + 1 : ℕ) : ℕ∞)

/-- Memo state after both starts of the corridor pair. -/
def corridorM2 (L : ℕ) : Memo :=
  Memo.set (corridorM1 L) (corridorC1 L) [corridorC0 L] ((L + 1 : ℕ) : ℕ∞)

/-- Best-start evaluation on the corridor pair: both starts give `L + 1`. -/
theorem corridor_bestStart (L : ℕ) :
    bestStart 2 [corridorC0 L, corridorC1 L] ⟨2, 1 <<< 2, []⟩ =
      .ok (((L + 1 : ℕ) : ℕ∞), corridorM2 L) := by
  have hv0 : (corridorC1 L).get_step_distance (corridorC0 L).coords = L + 1 :=
    rfl
  have hv1 : (corridorC0 L).get_step_distance (corridorC1 L).coords = L + 1 := by
    simp [corridorC0, corridorC1, Coin.set_step_distance,
      Coin.get_step_distance]
  have hm0 : (⟨2, 1 <<< 2, []⟩ : Memo).get (corridorC0 L) [corridorC1 L] =
      none := rfl
  have t0 := tgo_single_miss 2 (corridorC0 L) (corridorC1 L)
    ⟨2, 1 <<< 2, []⟩ hm0
  rw [hv0] at t0
  rw [show Memo.set ⟨2, 1 <<< 2, []⟩ (corridorC0 L) [corridorC1 L]
    ((L + 1 : ℕ) : ℕ∞) = corridorM1 L from rfl] at t0
  have hm1 : (corridorM1 L).get (corridorC1 L) [corridorC0 L] = none := rfl
  have t1 := tgo_single_miss 2 (corridorC1 L) (corridorC0 L)
    (corridorM1 L) hm1
  rw [hv1] at t1
  rw [show Memo.set (corridorM1 L) (corridorC1 L) [corridorC0 L]
    ((L + 1 : ℕ) : ℕ∞) = corridorM2 L from rfl] at t1
  show Except.ok ((List.range 2).foldl _ (⊤, (⟨2, 1 <<< 2, []⟩ : Memo))) = _
  rw [show List.range 2 = [0, 1] from rfl]
  rw [List.foldl_cons]
  dsimp only
  rw [show ([corridorC0 L, corridorC1 L].getD 0 dummyCoin) = corridorC0 L
    from rfl]
  rw [show ([corridorC0 L, corridorC1 L].eraseIdx 0) = [corridorC1 L]
    from rfl]
  rw [t0]
  dsimp only
  rw [min_eq_right le_top]
  rw [List.foldl_cons, List.foldl_nil]
  dsimp only
  rw [show ([corridorC0 L, corridorC1 L].getD 1 dummyCoin) = corridorC1 L
    from rfl]
  rw [show ([corridorC0 L, corridorC1 L].eraseIdx 1) = [corridorC0 L]
    from rfl]
  rw [t1]
  dsimp only
  rw [min_self]

/-- C7 (amended): on a straight corridor with `L` free cells between its
two coins, `get_expected_length(board, 2)` returns `L + 1` — the number of
unit moves between the coins — not `L` as the spec states. -/
theorem c7_corridor_length_plus_one (L : ℕ) :
    get_expected_length (corridorBoard L) 2 =
      .ok ((((L + 1 : ℕ) : ℚ) : WithTop ℚ)) := by
  unfold get_expected_length
  rw [scd_corridor L]
  dsimp only
  rw [show ([corridorC0 L, corridorC1 L] : List Coin).length = 2 from rfl]
  unfold run_combinations
  rw [show combos 2 [corridorC0 L, corridorC1 L] =
    [[corridorC0 L, corridorC1 L]] from rfl]
  rw [runCombos]
  rw [corridor_bestStart L]
  dsimp only
  rw [runCombos]
  rw [List.nil_append]
  dsimp only
  rw [if_neg (by simp : ¬([((L + 1 : ℕ) : ℕ∞)] : List ℕ∞).length = 0)]
  rw [show ([((L + 1 : ℕ) : ℕ∞)].foldl (· + ·) (0 : ℕ∞)) =
      ((L + 1 : ℕ) : ℕ∞) from by
    rw [List.foldl_cons, List.foldl_nil, zero_add]]
  rw [if_neg (ENat.coe_ne_top _)]
  rw [ENat.toNat_coe]
  norm_num

/-- C7 counterexample: with `L = 1` free cell between the two coins the
aggregator returns `2`, not the claimed `L = 1`. -/
theorem c7_corridor_equals_L_cex :
    get_expected_length (corridorBoard 1) 2 = .ok ((2 : ℚ) : WithTop ℚ) ∧
      ((2 : ℚ) : WithTop ℚ) ≠ ((1 : ℚ) : WithTop ℚ) := by
  constructor
  · unfold get_expected_length
    rw [scd_corridor 1]
    dsimp only
    rw [show ([corridorC0 1, corridorC1 1] : List Coin).length = 2 from rfl]
    unfold run_combinations
    rw [show combos 2 [corridorC0 1, corridorC1 1] =
      [[corridorC0 1, corridorC1 1]] from rfl]
    rw [runCombos]
    rw [corridor_bestStart 1]
    dsimp only
    rw [runCombos]
    rw [List.nil_append]
    dsimp only
    rw [if_neg (by simp : ¬([((1 + 1 : ℕ) : ℕ∞)] : List ℕ∞).length = 0)]
    rw [show ([((1 + 1 : ℕ) : ℕ∞)].foldl (· + ·) (0 : ℕ∞)) =
        ((1 + 1 : ℕ) : ℕ∞) from by
      rw [List.foldl_cons, List.foldl_nil, zero_add]]
    rw [if_neg (ENat.coe_ne_top _)]
    rw [ENat.toNat_coe]
    norm_num
  · decide
/-! ## C9 : find_starting_node -/

/-- Fold of `min` over scores, starting at `b`. -/
def minFrom (s : α → ℕ∞) (xs : List α) (b : ℕ∞) : ℕ∞ :=
  xs.foldl (fun a x => min a (s x)) b

/-- Fold of `max` over scores, starting at `b`. -/
def maxFrom (s : α → ℕ∞) (xs : List α) (b : ℕ∞) : ℕ∞ :=
  xs.foldl (fun a x => max a (s x)) b

/-- Each element of `l` paired with each element `f` produces from it. -/
def tagged (f : γ → List α) : List γ → List (γ × α)
  | [] => []
  | e :: rest => (f e).map (fun a => (e, a)) ++ tagged f rest

theorem minFrom_le_init (s : α → ℕ∞) :
    ∀ (xs : List α) (b : ℕ∞), minFrom s xs b ≤ b := by
  intro xs
  induction xs with
  | nil => intro b; exact le_refl b
  | cons x xs ih =>
      intro b
      exact le_trans (ih (min b (s x))) (min_le_left _ _)

theorem minFrom_cons (s : α → ℕ∞) (x : α) (xs : List α) (b : ℕ∞) :
    minFrom s (x :: xs) b = minFrom s xs (min b (s x)) := rfl

theorem minFrom_attained (s : α → ℕ∞) :
    ∀ (xs : List α) (b : ℕ∞), minFrom s xs b = b ∨
      ∃ x ∈ xs, s x = minFrom s xs b := by
  intro xs
  induction xs with
  | nil => intro b; exact Or.inl rfl
  | cons x xs ih =>
      intro b
      rw [minFrom_cons]
      rcases ih (min b (s x)) with h | ⟨y, hy, hys⟩
      · rw [h]
        rcases le_total b (s x) with hbs | hsb
        · rw [min_eq_left hbs]; exact Or.inl rfl
        · rw [min_eq_right hsb]
          exact Or.inr ⟨x, List.mem_cons_self x xs, rfl⟩
      · exact Or.inr ⟨y, List.mem_cons_of_mem x hy, hys⟩

theorem maxFrom_init_le (s : α → ℕ∞) :
    ∀ (xs : List α) (b : ℕ∞), b ≤ maxFrom s xs b := by
  intro xs
  induction xs with
  | nil => intro b; exact le_refl b
  | cons x xs ih =>
      intro b
      exact le_trans (le_max_left _ _) (ih (max b (s x)))

theorem maxFrom_cons (s : α → ℕ∞) (x : α) (xs : List α) (b : ℕ∞) :
    maxFrom s (x :: xs) b = maxFrom s xs (max b (s x)) := rfl

theorem maxFrom_mem_le (s : α → ℕ∞) :
    ∀ (xs : List α) (b : ℕ∞), ∀ x ∈ xs, s x ≤ maxFrom s xs b := by
  intro xs
  induction xs with
  | nil => intro b x hx; cases hx
  | cons y ys ih =>
      intro b x hx
      rcases List.mem_cons.mp hx with h | h
      · subst h
        exact le_trans (le_max_right b (s x)) (maxFrom_init_le s ys _)
      · exact ih _ x h

/-- The running min-and-collect fold: it returns the minimum score and
exactly the elements achieving it (appended to the start list when the
start bound is itself the minimum). -/
theorem minfold_spec (s : α → ℕ∞) :
    ∀ (xs : List α) (b : ℕ∞) (es : List α),
    xs.foldl
      (fun (acc : ℕ∞ × List α) e =>
        if s e < acc.1 then (s e, [e])
        else if s e = acc.1 then (acc.1, acc.2 ++ [e]) else acc)
      (b, es) =
      (minFrom s xs b,
        (if minFrom s xs b < b then [] else es) ++
          xs.filter (fun e => decide (s e = minFrom s xs b))) := by
  intro xs
  induction xs with
  | nil =>
      intro b es
      simp [minFrom, lt_irrefl]
  | cons e xs ih =>
      intro b es
      rw [List.foldl_cons, minFrom_cons]
      rcases lt_trichotomy (s e) b with hlt | heq | hgt
      · rw [if_pos hlt, min_eq_right hlt.le]
        rw [ih (s e) [e]]
        have hM : minFrom s xs (s e) ≤ s e := minFrom_le_init s xs (s e)
        have hMb : minFrom s xs (s e) < b := lt_of_le_of_lt hM hlt
        rw [if_pos hMb, List.nil_append, List.filter_cons]
        rcases eq_or_lt_of_le hM with hEq | hLt
        · have h1 : ¬minFrom s xs (s e) < s e :=
            not_lt_of_le (le_of_eq hEq.symm)
          have h2 : decide (s e = minFrom s xs (s e)) = true :=
            decide_eq_true hEq.symm
          rw [if_neg h1, if_pos h2, List.singleton_append]
        · have h1 : minFrom s xs (s e) < s e := hLt
          have h2 : ¬decide (s e = minFrom s xs (s e)) = true := by
            simp only [decide_eq_true_eq]
            exact ne_of_gt hLt
          rw [if_pos h1, if_neg h2, List.nil_append]
      · have hne : ¬s e < b := by rw [heq]; exact lt_irrefl b
        rw [if_neg hne, if_pos heq, heq, min_self]
        rw [ih b (es ++ [e]), List.filter_cons]
        have hM : minFrom s xs b ≤ b := minFrom_le_init s xs b
        rcases eq_or_lt_of_le hM with hEq | hLt
        · have h1 : ¬minFrom s xs b < b := not_lt_of_le (le_of_eq hEq.symm)
          have h2 : decide (s e = minFrom s xs b) = true :=
            decide_eq_true (heq.trans hEq.symm)
          rw [if_neg h1, if_neg h1, if_pos h2]
          simp [List.append_assoc]
        · have h2 : ¬decide (s e = minFrom s xs b) = true := by
            simp only [decide_eq_true_eq]
            rw [heq]
            exact ne_of_gt hLt
          rw [if_pos hLt, if_pos hLt, if_neg h2]
      · have hne : ¬s e < b := not_lt_of_le hgt.le
        rw [if_neg hne, if_neg (ne_of_gt hgt), min_eq_left hgt.le]
        rw [ih b es, List.filter_cons]
        have hM : minFrom s xs b ≤ b := minFrom_le_init s xs b
        have h2 : ¬decide (s e = minFrom s xs b) = true := by
          simp only [decide_eq_true_eq]
          exact ne_of_gt (lt_of_le_of_lt hM hgt)
        rw [if_neg h2]

/-- A nested fold over per-element lists equals one fold over the tagged
flattening. -/
theorem foldl_tagged (g : γ → β → α → β) (f : γ → List α) :
    ∀ (l : List γ) (init : β),
    l.foldl (fun acc e => (f e).foldl (g e) acc) init =
      (tagged f l).foldl (fun acc x => g x.1 acc x.2) init := by
  intro l
  induction l with
  | nil => intro init; rfl
  | cons e l ih =>
      intro init
      rw [List.foldl_cons, ih, tagged, List.foldl_append, List.foldl_map]

theorem tagged_mem {f : γ → List α} :
    ∀ {l : List γ} {x : γ × α}, x ∈ tagged f l → x.1 ∈ l ∧ x.2 ∈ f x.1 := by
  intro l
  induction l with
  | nil => intro x hx; cases hx
  | cons e l ih =>
      intro x hx
      rw [tagged, List.mem_append] at hx
      rcases hx with hx | hx
      · rcases List.mem_map.mp hx with ⟨a, ha, rfl⟩
        exact ⟨List.mem_cons_self e l, ha⟩
      · exact ⟨List.mem_cons_of_mem e (ih hx).1, (ih hx).2⟩

/-- `find?` only looks at the predicate's values on the list's members. -/
theorem find?_congr_mem {p q : α → Bool} :
    ∀ {xs : List α}, (∀ x ∈ xs, p x = q x) → xs.find? p = xs.find? q := by
  intro xs
  induction xs with
  | nil => intro _; rfl
  | cons x xs ih =>
      intro h
      have hx := h x (List.mem_cons_self x xs)
      by_cases hp : p x = true
      · rw [List.find?_cons_of_pos _ hp, List.find?_cons_of_pos _ (hx ▸ hp)]
      · rw [List.find?_cons_of_neg _ hp, List.find?_cons_of_neg _ (hx ▸ hp)]
        exact ih (fun y hy => h y (List.mem_cons_of_mem x hy))

/-- The strict-improvement argmax fold: the final score is the running max,
and when the start bound is exceeded the final payload comes from the first
element attaining the running max. -/
theorem argmax_fold_spec (s : α → ℕ∞) (p : α → β) :
    ∀ (xs : List α) (c : β) (b : ℕ∞),
    (xs.foldl (fun (acc : β × ℕ∞) x =>
        if acc.2 < s x then (p x, s x) else acc) (c, b)).2 = maxFrom s xs b ∧
    (maxFrom s xs b = b →
      (xs.foldl (fun (acc : β × ℕ∞) x =>
        if acc.2 < s x then (p x, s x) else acc) (c, b)).1 = c) ∧
    (b < maxFrom s xs b →
      ∃ x, xs.find? (fun x => decide (maxFrom s xs b ≤ s x)) = some x ∧
        (xs.foldl (fun (acc : β × ℕ∞) x =>
          if acc.2 < s x then (p x, s x) else acc) (c, b)).1 = p x) := by
  intro xs
  induction xs with
  | nil =>
      intro c b
      exact ⟨rfl, fun _ => rfl, fun h => absurd h (lt_irrefl b)⟩
  | cons x xs ih =>
      intro c b
      rw [List.foldl_cons, maxFrom_cons]
      by_cases hx : b < s x
      · rw [if_pos hx, max_eq_right hx.le]
        obtain ⟨ih1, ih2, ih3⟩ := ih (p x) (s x)
        refine ⟨ih1, ?_, ?_⟩
        · intro hM
          have := maxFrom_init_le s xs (s x)
          rw [hM] at this
          exact absurd (lt_of_lt_of_le hx this) (lt_irrefl b)
        · intro _
          have hsx : s x ≤ maxFrom s xs (s x) := maxFrom_init_le s xs (s x)
          rcases eq_or_lt_of_le hsx with hEq | hLt
          · exact ⟨x, List.find?_cons_of_pos _
              (decide_eq_true (le_of_eq hEq.symm)), ih2 hEq.symm⟩
          · obtain ⟨y, hy, hr⟩ := ih3 hLt
            have hcond : ¬decide (maxFrom s xs (s x) ≤ s x) = true := by
              simp only [decide_eq_true_eq]
              exact not_le_of_lt hLt
            exact ⟨y, (@List.find?_cons_of_neg _
              (fun z => decide (maxFrom s xs (s x) ≤ s z)) x xs hcond).trans
              hy, hr⟩
      · rw [if_neg hx]
        have hsb : s x ≤ b := le_of_not_lt hx
        rw [max_eq_left hsb]
        obtain ⟨ih1, ih2, ih3⟩ := ih c b
        refine ⟨ih1, ih2, ?_⟩
        · intro hbM
          obtain ⟨y, hy, hr⟩ := ih3 hbM
          have hcond : ¬decide (maxFrom s xs b ≤ s x) = true := by
            simp only [decide_eq_true_eq]
            exact not_le_of_lt (lt_of_le_of_lt hsb hbM)
          exact ⟨y, (@List.find?_cons_of_neg _
            (fun z => decide (maxFrom s xs b ≤ s z)) x xs hcond).trans
            hy, hr⟩

/-- The step distance a pair's first coin has cached for its second. -/
def pairDistance (e : Coin × Coin) : ℕ∞ :=
  ((e.1.get_step_distance e.2.coords : ℕ) : ℕ∞)

/-- The pairs attaining the globally minimum pairwise distance. -/
def minimal_pairs (coins : List Coin) : List (Coin × Coin) :=
  (pairsOf coins).filter
    (fun e => decide (pairDistance e = minFrom pairDistance (pairsOf coins) ⊤))

/-- A pair endpoint's minimum cached distance to any coin outside its own
pair (`⊤` when there is none). -/
def outside_score (coins : List Coin) (e : Coin × Coin) (c : Coin) : ℕ∞ :=
  minFrom (fun n => ((c.get_step_distance n.coords : ℕ) : ℕ∞))
    (coins.filter (fun n => ¬(n.coords = e.1.coords ∨ n.coords = e.2.coords)))
    ⊤

/-- Every endpoint occurrence of every minimal pair, in scan order. -/
def candidates (coins : List Coin) : List ((Coin × Coin) × Coin) :=
  tagged (fun e => [e.1, e.2]) (minimal_pairs coins)

/-- The best outside score over all minimal-pair endpoints. -/
def best_score (coins : List Coin) : ℕ∞ :=
  maxFrom (fun x => outside_score coins x.1 x.2) (candidates coins) 0

/-- The first minimal-pair endpoint attaining the best outside score. -/
def first_best (coins : List Coin) : Option ((Coin × Coin) × Coin) :=
  (candidates coins).find?
    (fun x => decide (outside_score coins x.1 x.2 = best_score coins))

theorem minFrom_mem_le (s : α → ℕ∞) :
    ∀ (xs : List α) (b : ℕ∞), ∀ x ∈ xs, minFrom s xs b ≤ s x := by
  intro xs
  induction xs with
  | nil => intro b x hx; cases hx
  | cons y ys ih =>
      intro b x hx
      rcases List.mem_cons.mp hx with h | h
      · subst h
        exact le_trans (minFrom_le_init s ys _) (min_le_right b (s x))
      · exact ih _ x h

theorem pairsOf_head_mem {a b : Coin} {t : List Coin} :
    (a, b) ∈ pairsOf (a :: b :: t) := by
  rw [pairsOf]
  exact List.mem_append_left _ (List.mem_map.mpr
    ⟨b, List.mem_cons_self b t, rfl⟩)

theorem minimal_pairs_ne_nil {coins : List Coin}
    (h2 : 2 ≤ coins.length) : minimal_pairs coins ≠ [] := by
  rcases coins with _ | ⟨a, _ | ⟨b, t⟩⟩
  · simp at h2
  · simp at h2
  · have hmem : (a, b) ∈ pairsOf (a :: b :: t) := pairsOf_head_mem
    rcases minFrom_attained pairDistance (pairsOf (a :: b :: t)) ⊤ with
      hT | ⟨e, he, hse⟩
    · have hle := minFrom_mem_le pairDistance (pairsOf (a :: b :: t)) ⊤
        (a, b) hmem
      rw [hT] at hle
      exact absurd (top_le_iff.mp hle) (ENat.coe_ne_top _)
    · intro hnil
      have : e ∈ minimal_pairs (a :: b :: t) :=
        List.mem_filter.mpr ⟨he, decide_eq_true hse⟩
      rw [hnil] at this
      cases this

theorem fsn_eq_taggedFold (coins : List Coin) (e0 : Coin × Coin)
    (rest : List (Coin × Coin)) (hMP : minimal_pairs coins = e0 :: rest) :
    find_starting_node coins =
      some (((candidates coins).foldl
        (fun (acc : Coin × ℕ∞) x =>
          if acc.2 < outside_score coins x.1 x.2
          then (x.2, outside_score coins x.1 x.2) else acc)
        (e0.1, 0)).1) := by
  have hfold : (pairsOf coins).foldl
      (fun (acc : ℕ∞ × List (Coin × Coin)) e =>
        let d : ℕ∞ := (e.1.get_step_distance e.2.coords : ℕ)
        if d < acc.1 then (d, [e])
        else if d = acc.1 then (acc.1, acc.2 ++ [e]) else acc)
      (⊤, []) =
      (minFrom pairDistance (pairsOf coins) ⊤, minimal_pairs coins) := by
    have h := minfold_spec pairDistance (pairsOf coins) ⊤ []
    rw [ite_self, List.nil_append] at h
    exact h
  unfold find_starting_node
  rw [hfold]
  dsimp only
  rw [hMP]
  dsimp only
  have hflat := foldl_tagged
    (fun (e : Coin × Coin) (acc2 : Coin × ℕ∞) coin =>
      if acc2.2 < outside_score coins e coin
      then (coin, outside_score coins e coin) else acc2)
    (fun e => [e.1, e.2]) (e0 :: rest) (e0.1, 0)
  have hcand : candidates coins = tagged (fun e => [e.1, e.2]) (e0 :: rest) := by
    unfold candidates
    rw [hMP]
  rw [hcand]
  exact congrArg (fun z => some z.1) hflat

/-- C9: `find_starting_node` returns the first endpoint occurrence, over
the pairs attaining the globally minimum pairwise distance, whose minimum
distance to a coin outside its own pair is maximal; in particular the
returned coin is an endpoint of a minimal pair. -/
theorem c9_first_minimal_edge_argmax (coins : List Coin)
    (h2 : 2 ≤ coins.length) :
    ∃ x, first_best coins = some x ∧
      find_starting_node coins = some x.2 ∧
      x.1 ∈ minimal_pairs coins ∧ (x.2 = x.1.1 ∨ x.2 = x.1.2) := by
  obtain ⟨e0, rest, hMP⟩ :=
    List.exists_cons_of_ne_nil (minimal_pairs_ne_nil h2)
  have hcode := fsn_eq_taggedFold coins e0 rest hMP
  obtain ⟨a1, a2, a3⟩ := argmax_fold_spec
    (fun (x : (Coin × Coin) × Coin) => outside_score coins x.1 x.2)
    (fun x => x.2) (candidates coins) e0.1 0
  have hcand : candidates coins =
      (e0, e0.1) :: (e0, e0.2) :: tagged (fun e => [e.1, e.2]) rest := by
    unfold candidates
    rw [hMP]
    rfl
  have hbs : best_score coins =
      maxFrom (fun (x : (Coin × Coin) × Coin) => outside_score coins x.1 x.2)
        (candidates coins) 0 := rfl
  rcases eq_or_lt_of_le (maxFrom_init_le
    (fun (x : (Coin × Coin) × Coin) => outside_score coins x.1 x.2)
    (candidates coins) 0) with hM0 | hMpos
  · -- every candidate scores 0; the first candidate wins
    have hmem0 : ((e0, e0.1) : (Coin × Coin) × Coin) ∈ candidates coins := by
      rw [hcand]; exact List.mem_cons_self _ _
    have hle0 : outside_score coins e0 e0.1 ≤ 0 := by
      have := maxFrom_mem_le
        (fun (x : (Coin × Coin) × Coin) => outside_score coins x.1 x.2)
        (candidates coins) 0 (e0, e0.1) hmem0
      rw [← hM0] at this
      exact this
    have hsc0 : outside_score coins e0 e0.1 = best_score coins := by
      rw [hbs, ← hM0]
      exact le_antisymm hle0 (zero_le _)
    refine ⟨(e0, e0.1), ?_, ?_, ?_, Or.inl rfl⟩
    · unfold first_best
      rw [hcand]
      exact List.find?_cons_of_pos _ (decide_eq_true hsc0)
    · exact hcode.trans (congrArg some (a2 hM0.symm))
    · rw [hMP]; exact List.mem_cons_self _ _
  · -- some candidate scores above 0: first attainer of the maximum wins
    obtain ⟨y, hy, hr⟩ := a3 hMpos
    have hym : y ∈ candidates coins := List.mem_of_find?_eq_some hy
    have hfb : first_best coins = some y := by
      unfold first_best
      have hcong : (candidates coins).find?
          (fun x => decide (outside_score coins x.1 x.2 = best_score coins)) =
          (candidates coins).find?
            (fun x => decide (maxFrom
              (fun (x : (Coin × Coin) × Coin) => outside_score coins x.1 x.2)
              (candidates coins) 0 ≤ outside_score coins x.1 x.2)) := by
        apply find?_congr_mem
        intro x hx
        have hxle := maxFrom_mem_le
          (fun (x : (Coin × Coin) × Coin) => outside_score coins x.1 x.2)
          (candidates coins) 0 x hx
        apply decide_eq_decide.mpr
        constructor
        · intro h
          exact le_of_eq (h.trans hbs).symm
        · intro h
          exact le_antisymm hxle (hbs ▸ h)
      rw [hcong]
      exact hy
    have hh := tagged_mem hym
    refine ⟨y, hfb, hcode.trans (congrArg some hr), hh.1, ?_⟩
    rcases List.mem_cons.mp hh.2 with h | h
    · exact Or.inl h
    · exact Or.inr (List.mem_singleton.mp h)

/-- Two concrete coins to instantiate C9 on. -/
def c9wA : Coin := ⟨(0, 0), 0, fun _ => 1⟩

def c9wB : Coin := ⟨(0, 1), 1, fun _ => 1⟩

/-- C9 witness at a concrete two-coin list. -/
theorem c9_first_minimal_edge_argmax_witness :
    ∃ x, first_best [c9wA, c9wB] = some x ∧
      find_starting_node [c9wA, c9wB] = some x.2 ∧
      x.1 ∈ minimal_pairs [c9wA, c9wB] ∧ (x.2 = x.1.1 ∨ x.2 = x.1.2) :=
  c9_first_minimal_edge_argmax [c9wA, c9wB] (by decide)
/-! ## C4 : Held-Karp groundwork — bitmask states -/

theorem lor_two_pow_eq_add {Y c : ℕ} (h : Y.testBit c = false) :
    Y ||| 2 ^ c = Y + 2 ^ c := by
  induction c generalizing Y with
  | zero =>
      rw [← Nat.bit_testBit_zero_shiftRight_one Y, h]
      show Nat.bit false (Y >>> 1) ||| Nat.bit true 0 =
        Nat.bit false (Y >>> 1) + Nat.bit true 0
      rw [Nat.lor_bit]
      simp [Nat.bit_val]
  | succ c ih =>
      have h2 : (2 : ℕ) ^ (c + 1) = Nat.bit false (2 ^ c) := by
        simp [Nat.bit_val, Nat.pow_succ, Nat.mul_comm]
      rw [← Nat.bit_testBit_zero_shiftRight_one Y, h2, Nat.lor_bit]
      have hm : (Y >>> 1).testBit c = false := by
        rw [Nat.testBit_shiftRight, Nat.add_comm]
        exact h
      rw [Bool.or_false, ih hm]
      simp [Nat.bit_val]
      ring

theorem hkState_testBit :
    ∀ (S : List ℕ) (b k : ℕ),
    (hkState b S).testBit k = (b.testBit k || decide (k ∈ S)) := by
  intro S
  induction S with
  | nil => intro b k; simp [hkState]
  | cons i S ih =>
      intro b k
      show (hkState (b ||| 1 <<< i) S).testBit k = _
      rw [ih]
      rw [Nat.shiftLeft_eq, one_mul, Nat.testBit_lor, Nat.testBit_two_pow]
      rw [Bool.or_assoc]
      congr 1
      simp [List.mem_cons, eq_comm]

theorem hkState_mem_iff {N : ℕ} {S T : List ℕ} (hS : ∀ i ∈ S, i < N)
    (hT : ∀ i ∈ T, i < N)
    (h : hkState (1 <<< N) S = hkState (1 <<< N) T) :
    ∀ k, k ∈ S ↔ k ∈ T := by
  intro k
  have hb := congrArg (fun z => z.testBit k) h
  dsimp only at hb
  rw [hkState_testBit, hkState_testBit] at hb
  constructor
  · intro hk
    have hkN : k < N := hS k hk
    have hbase : (1 <<< N).testBit k = false := by
      rw [Nat.shiftLeft_eq, one_mul, Nat.testBit_two_pow]
      simp [Nat.ne_of_gt hkN]
    rw [hbase, Bool.false_or, Bool.false_or, decide_eq_true hk] at hb
    exact of_decide_eq_true hb.symm
  · intro hk
    have hkN : k < N := hT k hk
    have hbase : (1 <<< N).testBit k = false := by
      rw [Nat.shiftLeft_eq, one_mul, Nat.testBit_two_pow]
      simp [Nat.ne_of_gt hkN]
    rw [hbase, Bool.false_or, Bool.false_or, decide_eq_true hk] at hb
    exact of_decide_eq_true hb

theorem sublist_eq_of_mem_iff :
    ∀ {l S T : List ℕ}, l.Nodup → List.Sublist S l → List.Sublist T l →
      (∀ x, x ∈ S ↔ x ∈ T) → S = T := by
  intro l
  induction l with
  | nil =>
      intro S T _ hS hT _
      rw [List.sublist_nil.mp hS, List.sublist_nil.mp hT]
  | cons a l ih =>
      intro S T hnd hS hT hmem
      have hna : a ∉ l := (List.nodup_cons.mp hnd).1
      have hndl : l.Nodup := (List.nodup_cons.mp hnd).2
      rcases List.sublist_cons_iff.mp hS with hS' | ⟨S', rfl, hS'⟩
      · rcases List.sublist_cons_iff.mp hT with hT' | ⟨T', rfl, hT'⟩
        · exact ih hndl hS' hT' hmem
        · exact absurd (hS'.subset ((hmem a).mpr (List.mem_cons_self a T')))
            hna
      · rcases List.sublist_cons_iff.mp hT with hT' | ⟨T', rfl, hT'⟩
        · exact absurd (hT'.subset ((hmem a).mp (List.mem_cons_self a S')))
            hna
        · have : S' = T' := by
            apply ih hndl hS' hT'
            intro x
            constructor
            · intro hx
              have hxa : x ≠ a := fun he => hna (he ▸ hS'.subset hx)
              rcases List.mem_cons.mp ((hmem x).mp
                (List.mem_cons_of_mem a hx)) with h | h
              · exact absurd h hxa
              · exact h
            · intro hx
              have hxa : x ≠ a := fun he => hna (he ▸ hT'.subset hx)
              rcases List.mem_cons.mp ((hmem x).mpr
                (List.mem_cons_of_mem a hx)) with h | h
              · exact absurd h hxa
              · exact h
          rw [this]

theorem hkState_inj {N : ℕ} {S T : List ℕ} (hS : List.Sublist S (List.range N))
    (hT : List.Sublist T (List.range N))
    (h : hkState (1 <<< N) S = hkState (1 <<< N) T) : S = T :=
  sublist_eq_of_mem_iff (List.nodup_range N) hS hT
    (hkState_mem_iff
      (fun i hi => List.mem_range.mp (hS.subset hi))
      (fun i hi => List.mem_range.mp (hT.subset hi)) h)

theorem hkState_cons (b c : ℕ) (R : List ℕ) :
    hkState b (c :: R) = hkState (b ||| 1 <<< c) R := rfl

theorem hkState_or_right :
    ∀ (R : List ℕ) (b x : ℕ), hkState (b ||| x) R = hkState b R ||| x := by
  intro R
  induction R with
  | nil => intro b x; rfl
  | cons i R ih =>
      intro b x
      rw [hkState_cons, hkState_cons]
      rw [show b ||| x ||| 1 <<< i = b ||| 1 <<< i ||| x from by
        rw [Nat.lor_assoc, Nat.lor_assoc, Nat.lor_comm x]]
      exact ih _ _

theorem hkState_perm (b : ℕ) {S T : List ℕ} (h : S.Perm T) :
    hkState b S = hkState b T :=
  h.foldl_eq'
    (fun x _ y _ z => by
      show z ||| 1 <<< x ||| 1 <<< y = z ||| 1 <<< y ||| 1 <<< x
      rw [Nat.lor_assoc, Nat.lor_assoc, Nat.lor_comm (1 <<< x)]) b

/-- Clearing a set bit of a subset state steps down to the subset without
that index. -/
theorem hkState_sub {N : ℕ} (T : List ℕ) (c : ℕ) (hc : c ∈ T)
    (hnd : T.Nodup) (hb : ∀ i ∈ T, i < N) :
    hkState (1 <<< N) T - 1 <<< c =
      hkState (1 <<< N) (T.filter (fun j => decide (j ≠ c))) := by
  have hperm : T.Perm (c :: T.filter (fun j => decide (j ≠ c))) := by
    have h1 := List.perm_cons_erase hc
    have h2 : T.erase c = T.filter (fun j => decide (j ≠ c)) := by
      rw [List.Nodup.erase_eq_filter hnd]
      apply List.filter_congr
      intro x _
      by_cases hxc : x = c
      · simp [hxc]
      · simp [hxc, bne]
    rw [h2] at h1
    exact h1
  rw [hkState_perm _ hperm, hkState_cons, hkState_or_right]
  have hbit : (hkState (1 <<< N)
      (T.filter (fun j => decide (j ≠ c)))).testBit c = false := by
    rw [hkState_testBit]
    have h1 : (1 <<< N).testBit c = false := by
      rw [Nat.shiftLeft_eq, one_mul, Nat.testBit_two_pow]
      have : c < N := hb c hc
      simp [Nat.ne_of_gt this]
    have h2 : c ∉ T.filter (fun j => decide (j ≠ c)) := by
      intro hmm
      have := List.of_mem_filter hmm
      simp at this
    rw [h1, Bool.false_or]
    simp [h2]
  rw [show (1 : ℕ) <<< c = 2 ^ c from by rw [Nat.shiftLeft_eq, one_mul]]
  rw [lor_two_pow_eq_add hbit, Nat.add_sub_cancel]

/-- The all-visited state read at the end is the state of the full range. -/
theorem finalAll_eq (N : ℕ) :
    1 <<< (N + 1) - 1 = hkState (1 <<< N) (List.range N) := by
  apply Nat.eq_of_testBit_eq
  intro k
  rw [hkState_testBit]
  rw [show (1 : ℕ) <<< (N + 1) = 2 ^ (N + 1) from by
    rw [Nat.shiftLeft_eq, one_mul]]
  rw [Nat.testBit_two_pow_sub_one]
  rw [show (1 : ℕ) <<< N = 2 ^ N from by rw [Nat.shiftLeft_eq, one_mul]]
  rw [Nat.testBit_two_pow]
  rw [Bool.eq_iff_iff]
  simp only [decide_eq_true_eq, Bool.or_eq_true, List.mem_range]
  omega
/-! ## C4 : path costs over coin indices and the DP specification -/

/-- Entry `transition_matrix[t][j]` as the code reads it. -/
def tmEntry (coins : List Coin) (t j : ℕ) : ℕ :=
  ((transitionMatrix coins).getD t []).getD j 0

/-- Cost of continuing a tour from index `t` through the listed indices. -/
def chainCost (coins : List Coin) : ℕ → List ℕ → ℕ
  | _, [] => 0
  | t, j :: rest => tmEntry coins t j + chainCost coins j rest

/-- Cost of a start-anchored index tour: the code's first leg (the head
coin's cached distance to the start) plus the transition chain. -/
def idxCost (start : Coin) (coins : List Coin) : List ℕ → ℕ
  | [] => 0
  | j :: rest => (coins.getD j dummyCoin).get_step_distance start.coords +
      chainCost coins j rest

/-- Permutations of the index subset `S` that end at `j`. -/
def permsEnd (S : List ℕ) (j : ℕ) : List (List ℕ) :=
  S.permutations.filter (fun q => decide (q.getLast? = some j))

/-- The Held-Karp table's intended value: the cheapest start-anchored tour
of the subset `S` ending at `j`. -/
def dpMin (start : Coin) (coins : List Coin) (S : List ℕ) (j : ℕ) : ℕ∞ :=
  minFrom (fun q => ((idxCost start coins q : ℕ) : ℕ∞)) (permsEnd S j) ⊤

theorem mem_permsEnd {S : List ℕ} {j : ℕ} {q : List ℕ} :
    q ∈ permsEnd S j ↔ q.Perm S ∧ q.getLast? = some j := by
  simp [permsEnd, List.mem_filter, List.mem_permutations]

theorem chainCost_append (coins : List Coin) :
    ∀ (r : List ℕ) (t j : ℕ),
    chainCost coins t (r ++ [j]) =
      chainCost coins t r + tmEntry coins (r.getLastD t) j := by
  intro r
  induction r with
  | nil => intro t j; simp [chainCost]
  | cons a r ih =>
      intro t j
      show chainCost coins t (a :: (r ++ [j])) = _
      rw [chainCost, ih a j, List.getLastD_cons, chainCost]
      ring

theorem idxCost_concat (start : Coin) (coins : List Coin) (ys : List ℕ)
    (t j : ℕ) :
    idxCost start coins ((ys ++ [t]) ++ [j]) =
      idxCost start coins (ys ++ [t]) + tmEntry coins t j := by
  rcases ys with _ | ⟨a, ys'⟩
  · show idxCost start coins (t :: [j]) = idxCost start coins [t] + _
    rw [idxCost, idxCost, chainCost, chainCost, chainCost]
    ring
  · rw [show ((a :: ys') ++ [t]) = a :: (ys' ++ [t]) from rfl]
    show idxCost start coins (a :: ((ys' ++ [t]) ++ [j])) = _
    rw [idxCost, idxCost, chainCost_append, List.getLastD_concat]
    ring

theorem minFrom_congr {s t : α → ℕ∞} :
    ∀ {xs : List α} (b : ℕ∞), (∀ x ∈ xs, s x = t x) →
      minFrom s xs b = minFrom t xs b := by
  intro xs
  induction xs with
  | nil => intro b _; rfl
  | cons x xs ih =>
      intro b h
      rw [minFrom_cons, minFrom_cons, h x (List.mem_cons_self x xs)]
      exact ih _ (fun y hy => h y (List.mem_cons_of_mem x hy))

/-- Size-one base case of the Held-Karp table. -/
theorem dpMin_singleton (start : Coin) (coins : List Coin) (j : ℕ) :
    dpMin start coins [j] j =
      ((coins.getD j dummyCoin).get_step_distance start.coords : ℕ∞) := by
  have hmem : [j] ∈ permsEnd [j] j :=
    mem_permsEnd.mpr ⟨List.Perm.refl _, rfl⟩
  have hval : idxCost start coins [j] =
      (coins.getD j dummyCoin).get_step_distance start.coords := rfl
  unfold dpMin
  apply le_antisymm
  · have h := minFrom_mem_le
      (fun q => ((idxCost start coins q : ℕ) : ℕ∞)) (permsEnd [j] j) ⊤
      [j] hmem
    dsimp only at h
    rw [hval] at h
    exact h
  · rcases minFrom_attained
      (fun q => ((idxCost start coins q : ℕ) : ℕ∞)) (permsEnd [j] j) ⊤ with
      hT | ⟨q, hq, hqv⟩
    · rw [hT]; exact le_top
    · have hq' : q = [j] := List.perm_singleton.mp (mem_permsEnd.mp hq).1
      subst hq'
      rw [← hqv, hval]

/-- One step of the Held-Karp recurrence: the cheapest tour of `S` ending
at `j` extends a cheapest tour of `S` minus `j` ending at some other
index. -/
theorem dpMin_recurrence (start : Coin) (coins : List Coin) (S : List ℕ)
    (j : ℕ) (hnd : S.Nodup) (hj : j ∈ S) (h2 : 2 ≤ S.length) :
    dpMin start coins S j =
      minFrom (fun t => dpMin start coins (S.filter (fun i => decide (i ≠ j))) t
          + (tmEntry coins t j : ℕ∞))
        (S.filter (fun i => decide (i ≠ j))) ⊤ := by
  have hSJ : S.Perm (j :: S.filter (fun i => decide (i ≠ j))) := by
    have h1 := List.perm_cons_erase hj
    have he : S.erase j = S.filter (fun i => decide (i ≠ j)) := by
      rw [List.Nodup.erase_eq_filter hnd]
      apply List.filter_congr
      intro x _
      by_cases hxj : x = j
      · simp [hxj]
      · simp [hxj, bne]
    rw [he] at h1
    exact h1
  apply le_antisymm
  · rcases minFrom_attained
      (fun t => dpMin start coins (S.filter (fun i => decide (i ≠ j))) t
        + (tmEntry coins t j : ℕ∞))
      (S.filter (fun i => decide (i ≠ j))) ⊤ with hT | ⟨t, ht, htv⟩
    · rw [hT]; exact le_top
    · rw [← htv]
      rcases minFrom_attained
        (fun q => ((idxCost start coins q : ℕ) : ℕ∞))
        (permsEnd (S.filter (fun i => decide (i ≠ j))) t) ⊤ with
        hT2 | ⟨q, hq, hqv⟩
      · show dpMin start coins S j ≤ dpMin start coins _ t + _
        rw [show dpMin start coins (S.filter (fun i => decide (i ≠ j))) t = ⊤
          from hT2]
        simp
      · obtain ⟨hqp, hql⟩ := mem_permsEnd.mp hq
        obtain ⟨r, rfl⟩ := List.getLast?_eq_some_iff.mp hql
        have hmem : (r ++ [t]) ++ [j] ∈ permsEnd S j := by
          apply mem_permsEnd.mpr
          exact ⟨(List.perm_append_singleton j (r ++ [t])).trans
            ((hqp.cons j).trans hSJ.symm), List.getLast?_concat _⟩
        have hle := minFrom_mem_le
          (fun q => ((idxCost start coins q : ℕ) : ℕ∞)) (permsEnd S j) ⊤
          _ hmem
        refine le_trans hle (le_of_eq ?_)
        show ((idxCost start coins ((r ++ [t]) ++ [j]) : ℕ) : ℕ∞) =
          dpMin start coins _ t + _
        rw [idxCost_concat, Nat.cast_add]
        rw [show ((idxCost start coins (r ++ [t]) : ℕ) : ℕ∞) =
          dpMin start coins (S.filter (fun i => decide (i ≠ j))) t from hqv]
  · rcases minFrom_attained
      (fun q => ((idxCost start coins q : ℕ) : ℕ∞)) (permsEnd S j) ⊤ with
      hT | ⟨q, hq, hqv⟩
    · show _ ≤ dpMin start coins S j
      rw [show dpMin start coins S j = ⊤ from hT]
      exact le_top
    · obtain ⟨hqp, hql⟩ := mem_permsEnd.mp hq
      obtain ⟨r, rfl⟩ := List.getLast?_eq_some_iff.mp hql
      have hrne : r ≠ [] := by
        intro hr
        subst hr
        have := hqp.length_eq
        simp at this
        omega
      rcases List.eq_nil_or_concat r with hr | ⟨ys, t, hcat⟩
      · exact absurd hr hrne
      rw [List.concat_eq_append] at hcat
      subst hcat
      · have hrS : (ys ++ [t]).Perm (S.filter (fun i => decide (i ≠ j))) := by
          have h1 : ((ys ++ [t]) ++ [j]).Perm (j :: (ys ++ [t])) :=
            List.perm_append_singleton _ _
          have h2 : (j :: (ys ++ [t])).Perm
              (j :: S.filter (fun i => decide (i ≠ j))) :=
            (h1.symm.trans hqp).trans hSJ
          exact h2.cons_inv
        have htmem : t ∈ S.filter (fun i => decide (i ≠ j)) :=
          hrS.subset (List.mem_append_right ys (List.mem_cons_self t []))
        have hrmem : ys ++ [t] ∈
            permsEnd (S.filter (fun i => decide (i ≠ j))) t :=
          mem_permsEnd.mpr ⟨hrS, List.getLast?_concat _⟩
        have hle1 := minFrom_mem_le
          (fun t => dpMin start coins (S.filter (fun i => decide (i ≠ j))) t
            + (tmEntry coins t j : ℕ∞))
          (S.filter (fun i => decide (i ≠ j))) ⊤ t htmem
        have hle2 := minFrom_mem_le
          (fun q => ((idxCost start coins q : ℕ) : ℕ∞))
          (permsEnd (S.filter (fun i => decide (i ≠ j))) t) ⊤ _ hrmem
        refine le_trans hle1 (le_trans (add_le_add_right hle2 _) (le_of_eq ?_))
        show ((idxCost start coins (ys ++ [t]) : ℕ) : ℕ∞) +
            ((tmEntry coins t j : ℕ) : ℕ∞) =
          minFrom (fun q => ((idxCost start coins q : ℕ) : ℕ∞))
            (permsEnd S j) ⊤
        rw [← hqv, idxCost_concat, Nat.cast_add]
/-! ## C4 : the iterative table build computes `dpMin` -/

/-- One write of the per-subset inner loop. -/
def innerStep (coins : List Coin) (B : ℕ) (T : List ℕ)
    (f3 : ℕ × ℕ → ℕ∞) (cidx : ℕ) : ℕ × ℕ → ℕ∞ :=
  fun k => if k = (hkState B T, cidx) then
    minFrom (fun t => f3 (hkState B T - 1 <<< cidx, t) +
        ((tmEntry coins t cidx : ℕ) : ℕ∞))
      (T.filter (fun j => decide (j ≠ cidx))) ⊤
  else f3 k

/-- Processing one subset: write every ending index of the subset. -/
def subsetStep (coins : List Coin) (B : ℕ) (f2 : ℕ × ℕ → ℕ∞)
    (T : List ℕ) : ℕ × ℕ → ℕ∞ :=
  T.foldl (innerStep coins B T) f2

/-- Processing one subset size. -/
def passStep (coins : List Coin) (B : ℕ) (f : ℕ × ℕ → ℕ∞) (n : ℕ) :
    ℕ × ℕ → ℕ∞ :=
  (combos n (List.range coins.length)).foldl (subsetStep coins B) f

/-- The table after the seeding loop over single coins. -/
def hkInit (start : Coin) (coins : List Coin) : ℕ × ℕ → ℕ∞ :=
  coins.enum.foldl
    (fun f p => fun k =>
      if k = (1 <<< coins.length ||| (1 <<< p.1), p.1) then
        ((p.2.get_step_distance start.coords : ℕ) : ℕ∞) else f k)
    (fun _ => ⊤)

theorem held_karp_unfold (start : Coin) (coins : List Coin) :
    held_karp_algorithm_for_shortest_distance start coins =
      minFrom
        (fun idx =>
          ((List.range' 2 (coins.length - 1)).foldl
            (passStep coins (1 <<< coins.length)) (hkInit start coins))
            (1 <<< (coins.length + 1) - 1, idx))
        (List.range coins.length) ⊤ := rfl

theorem erase_eq_filter_ne {T : List ℕ} (hnd : T.Nodup) (c : ℕ) :
    T.erase c = T.filter (fun j => decide (j ≠ c)) := by
  rw [List.Nodup.erase_eq_filter hnd]
  apply List.filter_congr
  intro x _
  by_cases hxc : x = c
  · simp [hxc]
  · simp [hxc, bne]

theorem combos_mem :
    ∀ (n : ℕ) (l S : List α),
    S ∈ combos n l ↔ List.Sublist S l ∧ S.length = n := by
  intro n
  induction n with
  | zero =>
      intro l S
      constructor
      · intro h
        have : S = [] := by simpa [combos] using h
        subst this
        exact ⟨List.nil_sublist l, rfl⟩
      · intro ⟨_, hlen⟩
        have : S = [] := List.eq_nil_of_length_eq_zero hlen
        subst this
        simp [combos]
  | succ n ih =>
      intro l
      induction l with
      | nil =>
          intro S
          constructor
          · intro h; simp [combos] at h
          · intro ⟨hs, hlen⟩
            have hle := hs.length_le
            rw [hlen] at hle
            simp at hle
      | cons x xs ihl =>
          intro S
          rw [show combos (n + 1) (x :: xs) =
            (combos n xs).map (x :: ·) ++ combos (n + 1) xs from rfl]
          rw [List.mem_append, List.mem_map]
          constructor
          · rintro (⟨T, hT, rfl⟩ | h)
            · obtain ⟨hsub, hlen⟩ := (ih xs T).mp hT
              exact ⟨hsub.cons₂ x, by simp [hlen]⟩
            · obtain ⟨hsub, hlen⟩ := (ihl S).mp h
              exact ⟨hsub.cons x, hlen⟩
          · rintro ⟨hsub, hlen⟩
            rcases List.sublist_cons_iff.mp hsub with h | ⟨r, rfl, hr⟩
            · exact Or.inr ((ihl S).mpr ⟨h, hlen⟩)
            · refine Or.inl ⟨r, (ih xs r).mpr ⟨hr, ?_⟩, rfl⟩
              simpa using hlen

theorem enumInit_preserve (start : Coin) (B : ℕ) :
    ∀ (l : List Coin) (k : ℕ) (f0 : ℕ × ℕ → ℕ∞) (q : ℕ × ℕ), q.2 < k →
    ((List.enumFrom k l).foldl
      (fun f p => fun q' =>
        if q' = (B ||| (1 <<< p.1), p.1) then
          ((p.2.get_step_distance start.coords : ℕ) : ℕ∞) else f q')
      f0) q = f0 q := by
  intro l
  induction l with
  | nil => intro k f0 q _; rfl
  | cons c l ih =>
      intro k f0 q hq
      rw [show List.enumFrom k (c :: l) = (k, c) :: List.enumFrom (k + 1) l
        from rfl, List.foldl_cons]
      rw [ih (k + 1) _ q (Nat.lt_succ_of_lt hq)]
      have hne : q ≠ (B ||| (1 <<< k), k) := by
        intro h
        rw [h] at hq
        exact absurd hq (lt_irrefl k)
      dsimp only
      rw [if_neg hne]

theorem enumInit_eval (start : Coin) (B : ℕ) :
    ∀ (l : List Coin) (k : ℕ) (f0 : ℕ × ℕ → ℕ∞) (i : ℕ), i < l.length →
    ((List.enumFrom k l).foldl
      (fun f p => fun q' =>
        if q' = (B ||| (1 <<< p.1), p.1) then
          ((p.2.get_step_distance start.coords : ℕ) : ℕ∞) else f q')
      f0) (B ||| (1 <<< (k + i)), k + i) =
      ((l.getD i dummyCoin).get_step_distance start.coords : ℕ∞) := by
  intro l
  induction l with
  | nil => intro k f0 i hi; cases hi
  | cons c l ih =>
      intro k f0 i hi
      rw [show List.enumFrom k (c :: l) = (k, c) :: List.enumFrom (k + 1) l
        from rfl, List.foldl_cons]
      rcases i with _ | i'
      · simp only [Nat.add_zero]
        rw [enumInit_preserve start B l (k + 1) _ _ (Nat.lt_succ_self k)]
        show (if ((B ||| 1 <<< k, k) : ℕ × ℕ) = (B ||| 1 <<< k, k) then
          ((c.get_step_distance start.coords : ℕ) : ℕ∞)
          else f0 (B ||| 1 <<< k, k)) = _
        rw [if_pos rfl]
        rfl
      · rw [show k + (i' + 1) = (k + 1) + i' from by omega]
        rw [ih (k + 1) _ i' (by simpa using hi)]
        rfl

/-- The invariant: every subset of size at most `n` has its table value. -/
def Ple (start : Coin) (coins : List Coin) (n : ℕ) (f : ℕ × ℕ → ℕ∞) :
    Prop :=
  ∀ S j, List.Sublist S (List.range coins.length) → j ∈ S → S.length ≤ n →
    f (hkState (1 <<< coins.length) S, j) = dpMin start coins S j

theorem state_ne_of_len_ne {N : ℕ} {S T : List ℕ}
    (hS : List.Sublist S (List.range N)) (hT : List.Sublist T (List.range N))
    (h : S.length ≠ T.length) :
    hkState (1 <<< N) S ≠ hkState (1 <<< N) T :=
  fun he => h (by rw [hkState_inj hS hT he])

theorem hkInit_P (start : Coin) (coins : List Coin) :
    Ple start coins 1 (hkInit start coins) := by
  intro S j hS hj hlen
  rcases S with _ | ⟨a, S'⟩
  · cases hj
  rcases S' with _ | ⟨b, S''⟩
  · have hj' : j = a := by simpa using hj
    subst hj'
    have ha : j < coins.length := List.mem_range.mp (hS.subset (by simp))
    rw [show hkState (1 <<< coins.length) [j] =
      1 <<< coins.length ||| 1 <<< j from rfl]
    rw [dpMin_singleton]
    have h0 := enumInit_eval start (1 <<< coins.length) coins 0
      (fun _ => ⊤) j ha
    simp only [Nat.zero_add] at h0
    exact h0
  · simp at hlen

theorem innerFold_go (coins : List Coin) (B : ℕ) (T : List ℕ)
    (f2 : ℕ × ℕ → ℕ∞)
    (hst : ∀ c ∈ T, hkState B T - 1 <<< c ≠ hkState B T) :
    ∀ (cs : List ℕ), (∀ c ∈ cs, c ∈ T) →
    ∀ (f3 : ℕ × ℕ → ℕ∞), (∀ q, q.1 ≠ hkState B T → f3 q = f2 q) →
    (∀ q, (∀ c ∈ cs, q ≠ (hkState B T, c)) →
      (cs.foldl (innerStep coins B T) f3) q = f3 q) ∧
    (∀ c ∈ cs, (cs.foldl (innerStep coins B T) f3) (hkState B T, c) =
      minFrom (fun t => f2 (hkState B T - 1 <<< c, t) +
          ((tmEntry coins t c : ℕ) : ℕ∞))
        (T.filter (fun j => decide (j ≠ c))) ⊤) := by
  intro cs
  induction cs with
  | nil =>
      intro _ f3 _
      exact ⟨fun q _ => rfl, fun c hc => absurd hc (by simp)⟩
  | cons c cs ih =>
      intro hsub f3 hf3
      have hcT : c ∈ T := hsub c (List.mem_cons_self c cs)
      have hf3' : ∀ q, q.1 ≠ hkState B T →
          innerStep coins B T f3 c q = f2 q := by
        intro q hq
        show (if q = (hkState B T, c) then _ else f3 q) = f2 q
        rw [if_neg (by intro h; rw [h] at hq; exact hq rfl)]
        exact hf3 q hq
      have hwrite : innerStep coins B T f3 c (hkState B T, c) =
          minFrom (fun t => f2 (hkState B T - 1 <<< c, t) +
              ((tmEntry coins t c : ℕ) : ℕ∞))
            (T.filter (fun j => decide (j ≠ c))) ⊤ := by
        show (if ((hkState B T, c) : ℕ × ℕ) = (hkState B T, c) then _ else _)
          = _
        rw [if_pos rfl]
        apply minFrom_congr
        intro t _
        rw [hf3 (hkState B T - 1 <<< c, t) (hst c hcT)]
      obtain ⟨p1, p2⟩ := ih (fun c' hc' => hsub c' (List.mem_cons_of_mem c hc'))
        (innerStep coins B T f3 c) hf3'
      constructor
      · intro q hq
        rw [List.foldl_cons]
        rw [p1 q (fun c' hc' => hq c' (List.mem_cons_of_mem c hc'))]
        show (if q = (hkState B T, c) then _ else f3 q) = f3 q
        rw [if_neg (hq c (List.mem_cons_self c cs))]
      · intro c' hc'
        rw [List.foldl_cons]
        by_cases hmem : c' ∈ cs
        · exact p2 c' hmem
        · have hc'c : c' = c := by
            rcases List.mem_cons.mp hc' with h | h
            · exact h
            · exact absurd h hmem
          subst hc'c
          rw [p1 (hkState B T, c') (fun c'' hc'' => by
            intro he
            apply hmem
            have : c' = c'' := congrArg Prod.snd he
            rw [this]
            exact hc'')]
          exact hwrite

theorem subsetStep_char (start : Coin) (coins : List Coin) (n : ℕ)
    (f2 : ℕ × ℕ → ℕ∞) (hP : Ple start coins n f2)
    (T : List ℕ) (hT : List.Sublist T (List.range coins.length))
    (hlen : T.length = n + 1) (hn : 1 ≤ n) :
    (∀ q, q.1 ≠ hkState (1 <<< coins.length) T →
      subsetStep coins (1 <<< coins.length) f2 T q = f2 q) ∧
    (∀ c ∈ T, subsetStep coins (1 <<< coins.length) f2 T
        (hkState (1 <<< coins.length) T, c) = dpMin start coins T c) := by
  have hnd : T.Nodup := hT.nodup (List.nodup_range _)
  have hbound : ∀ i ∈ T, i < coins.length :=
    fun i hi => List.mem_range.mp (hT.subset hi)
  have hst : ∀ c ∈ T, hkState (1 <<< coins.length) T - 1 <<< c ≠
      hkState (1 <<< coins.length) T := by
    intro c hc heq
    rw [hkState_sub T c hc hnd hbound] at heq
    have hTf : List.Sublist (T.filter (fun j => decide (j ≠ c)))
        (List.range coins.length) := (List.filter_sublist T).trans hT
    have heq2 := hkState_inj hTf hT heq
    have hL : (T.filter (fun j => decide (j ≠ c))).length = T.length := by
      rw [heq2]
    rw [← erase_eq_filter_ne hnd, List.length_erase_of_mem hc] at hL
    omega
  obtain ⟨p1, p2⟩ := innerFold_go coins (1 <<< coins.length) T f2 hst T
    (fun c hc => hc) f2 (fun q _ => rfl)
  refine ⟨?_, ?_⟩
  · intro q hq
    exact p1 q (fun c _ => by intro he; rw [he] at hq; exact hq rfl)
  · intro c hc
    show (T.foldl (innerStep coins (1 <<< coins.length) T) f2) _ = _
    rw [p2 c hc]
    rw [hkState_sub T c hc hnd hbound]
    have hW : minFrom (fun t => f2 (hkState (1 <<< coins.length)
          (T.filter (fun j => decide (j ≠ c))), t) +
          ((tmEntry coins t c : ℕ) : ℕ∞))
        (T.filter (fun j => decide (j ≠ c))) ⊤ =
        minFrom (fun t => dpMin start coins
          (T.filter (fun j => decide (j ≠ c))) t +
          ((tmEntry coins t c : ℕ) : ℕ∞))
        (T.filter (fun j => decide (j ≠ c))) ⊤ := by
      apply minFrom_congr
      intro t ht
      have := hP (T.filter (fun j => decide (j ≠ c))) t
        ((List.filter_sublist T).trans hT) ht
        (by rw [← erase_eq_filter_ne hnd, List.length_erase_of_mem hc]; omega)
      rw [this]
    rw [hW]
    exact (dpMin_recurrence start coins T c hnd hc (by omega)).symm

theorem subsetsFold_char (start : Coin) (coins : List Coin) (n : ℕ)
    (hn : 1 ≤ n) :
    ∀ (C : List (List ℕ)) (f2 : ℕ × ℕ → ℕ∞),
    (∀ T ∈ C, List.Sublist T (List.range coins.length) ∧ T.length = n + 1) →
    Ple start coins n f2 →
    (∀ q, (∀ T ∈ C, q.1 ≠ hkState (1 <<< coins.length) T) →
      (C.foldl (subsetStep coins (1 <<< coins.length)) f2) q = f2 q) ∧
    Ple start coins n (C.foldl (subsetStep coins (1 <<< coins.length)) f2) ∧
    (∀ T ∈ C, ∀ c ∈ T,
      (C.foldl (subsetStep coins (1 <<< coins.length)) f2)
        (hkState (1 <<< coins.length) T, c) = dpMin start coins T c) := by
  intro C
  induction C with
  | nil =>
      intro f2 _ hP
      exact ⟨fun q _ => rfl, hP, fun T hT => absurd hT (by simp)⟩
  | cons T C ih =>
      intro f2 hC hP
      obtain ⟨hTsub, hTlen⟩ := hC T (List.mem_cons_self T C)
      obtain ⟨s1, s2⟩ := subsetStep_char start coins n f2 hP T hTsub hTlen hn
      have hP' : Ple start coins n
          (subsetStep coins (1 <<< coins.length) f2 T) := by
        intro S j hS hj hl
        rw [s1 (hkState (1 <<< coins.length) S, j)
          (state_ne_of_len_ne hS hTsub (by omega))]
        exact hP S j hS hj hl
      obtain ⟨q1, q2, q3⟩ := ih (subsetStep coins (1 <<< coins.length) f2 T)
        (fun T' hT' => hC T' (List.mem_cons_of_mem T hT')) hP'
      refine ⟨?_, ?_, ?_⟩
      · intro q hq
        rw [List.foldl_cons]
        rw [q1 q (fun T' hT' => hq T' (List.mem_cons_of_mem T hT'))]
        exact s1 q (hq T (List.mem_cons_self T C))
      · rw [List.foldl_cons]
        exact q2
      · intro T' hT' c hc
        rw [List.foldl_cons]
        by_cases hmem : T' ∈ C
        · exact q3 T' hmem c hc
        · have hT'T : T' = T := by
            rcases List.mem_cons.mp hT' with h | h
            · exact h
            · exact absurd h hmem
          subst hT'T
          rw [q1 (hkState (1 <<< coins.length) T', c) (fun T'' hT'' => by
            have hT''sub := (hC T'' (List.mem_cons_of_mem T' hT'')).1
            intro he
            apply hmem
            rw [hkState_inj hTsub hT''sub he]
            exact hT'')]
          exact s2 c hc

theorem passStep_P (start : Coin) (coins : List Coin) (n : ℕ)
    (hn : 1 ≤ n) (f : ℕ × ℕ → ℕ∞) (hP : Ple start coins n f) :
    Ple start coins (n + 1)
      (passStep coins (1 <<< coins.length) f (n + 1)) := by
  obtain ⟨pa, pb, pc⟩ := subsetsFold_char start coins n hn
    (combos (n + 1) (List.range coins.length)) f
    (fun T hT => (combos_mem _ _ _).mp hT) hP
  intro S j hS hj hlen
  rcases Nat.lt_or_ge S.length (n + 1) with hlt | hge
  · exact pb S j hS hj (by omega)
  · have hSlen : S.length = n + 1 := le_antisymm hlen hge
    have hSC : S ∈ combos (n + 1) (List.range coins.length) :=
      (combos_mem _ _ _).mpr ⟨hS, hSlen⟩
    exact pc S hSC j hj

theorem sizesFold_P (start : Coin) (coins : List Coin) :
    ∀ (cnt m : ℕ) (f : ℕ × ℕ → ℕ∞), 1 ≤ m → Ple start coins m f →
    Ple start coins (m + cnt)
      ((List.range' (m + 1) cnt).foldl
        (passStep coins (1 <<< coins.length)) f) := by
  intro cnt
  induction cnt with
  | zero => intro m f _ hP; exact hP
  | succ cnt ih =>
      intro m f hm hP
      rw [show List.range' (m + 1) (cnt + 1) =
        (m + 1) :: List.range' (m + 2) cnt from rfl]
      rw [List.foldl_cons]
      have hP1 := passStep_P start coins m hm f hP
      have h2 := ih (m + 1) (passStep coins (1 <<< coins.length) f (m + 1))
        (by omega) hP1
      rw [show m + (cnt + 1) = (m + 1) + cnt from by omega]
      exact h2

/-- The Held-Karp code returns the minimum over ending indices of the
cheapest start-anchored tours of the full index range. -/
theorem hk_eq_dpMin (start : Coin) (coins : List Coin) (hne : coins ≠ []) :
    held_karp_algorithm_for_shortest_distance start coins =
      minFrom (fun i => dpMin start coins (List.range coins.length) i)
        (List.range coins.length) ⊤ := by
  have hN : 1 ≤ coins.length := List.length_pos.mpr hne
  rw [held_karp_unfold]
  have hP : Ple start coins coins.length
      ((List.range' 2 (coins.length - 1)).foldl
        (passStep coins (1 <<< coins.length)) (hkInit start coins)) := by
    have h1 := sizesFold_P start coins (coins.length - 1) 1
      (hkInit start coins) (le_refl 1) (hkInit_P start coins)
    rw [show (1 : ℕ) + (coins.length - 1) = coins.length from by omega] at h1
    exact h1
  apply minFrom_congr
  intro i hi
  rw [finalAll_eq]
  exact hP (List.range coins.length) i (List.Sublist.refl _) hi
    (by rw [List.length_range])
/-! ## C4 : from index tours to coin permutations -/

/-- The start-anchored cost of one coin permutation, first leg read the way
the Held-Karp seeding loop reads it. -/
def hk_perm_cost (start : Coin) : List Coin → ℕ
  | [] => 0
  | c :: rest => c.get_step_distance start.coords + path_steps (c :: rest)

/-- The cheapest start-anchored tour over all permutations of the coin
list. -/
def min_anchored (start : Coin) (coins : List Coin) : ℕ∞ :=
  minFrom (fun p => ((hk_perm_cost start p : ℕ) : ℕ∞)) coins.permutations ⊤

theorem dpMin_range_min (start : Coin) (coins : List Coin)
    (hne : coins ≠ []) :
    minFrom (fun i => dpMin start coins (List.range coins.length) i)
      (List.range coins.length) ⊤ =
    minFrom (fun q => ((idxCost start coins q : ℕ) : ℕ∞))
      (List.range coins.length).permutations ⊤ := by
  apply le_antisymm
  · rcases minFrom_attained
      (fun q => ((idxCost start coins q : ℕ) : ℕ∞))
      (List.range coins.length).permutations ⊤ with hT | ⟨q, hq, hqv⟩
    · rw [hT]; exact le_top
    · have hqp : q.Perm (List.range coins.length) :=
        List.mem_permutations.mp hq
      have hqne : q ≠ [] := by
        intro h
        subst h
        have hlen := hqp.length_eq
        rw [List.length_nil, List.length_range] at hlen
        exact hne (List.length_eq_zero.mp hlen.symm)
      rcases List.eq_nil_or_concat q with h | ⟨ys, j, hcat⟩
      · exact absurd h hqne
      rw [List.concat_eq_append] at hcat
      subst hcat
      have hjq : j ∈ ys ++ [j] := List.mem_append_right ys (by simp)
      have hjr : j ∈ List.range coins.length := hqp.subset hjq
      have hmem : ys ++ [j] ∈ permsEnd (List.range coins.length) j :=
        mem_permsEnd.mpr ⟨hqp, List.getLast?_concat _⟩
      refine le_trans (minFrom_mem_le _ _ ⊤ j hjr) ?_
      rw [← hqv]
      exact minFrom_mem_le _ _ ⊤ _ hmem
  · rcases minFrom_attained
      (fun i => dpMin start coins (List.range coins.length) i)
      (List.range coins.length) ⊤ with hT | ⟨i, hi, hiv⟩
    · rw [hT]; exact le_top
    · rw [← hiv]
      rcases minFrom_attained
        (fun q => ((idxCost start coins q : ℕ) : ℕ∞))
        (permsEnd (List.range coins.length) i) ⊤ with hT2 | ⟨q, hq, hqv⟩
      · show _ ≤ dpMin start coins _ i
        rw [show dpMin start coins (List.range coins.length) i = ⊤ from hT2]
        exact le_top
      · have hqperm : q ∈ (List.range coins.length).permutations :=
          List.mem_permutations.mpr (mem_permsEnd.mp hq).1
        refine le_trans (minFrom_mem_le _ _ ⊤ q hqperm) ?_
        show ((idxCost start coins q : ℕ) : ℕ∞) ≤ dpMin start coins _ i
        rw [show dpMin start coins (List.range coins.length) i =
          ((idxCost start coins q : ℕ) : ℕ∞) from hqv.symm]

theorem coords_ne_of_ne (coins : List Coin)
    (hc : (coins.map Coin.coords).Nodup)
    {t j : ℕ} (ht : t < coins.length) (hj : j < coins.length) (hne : t ≠ j) :
    (coins.getD t dummyCoin).coords ≠ (coins.getD j dummyCoin).coords := by
  rw [List.getD_eq_getElem coins dummyCoin ht,
    List.getD_eq_getElem coins dummyCoin hj]
  intro heq
  apply hne
  have hinj := List.nodup_iff_injective_get.mp hc
  have hget : (coins.map Coin.coords).get ⟨t, by simpa using ht⟩ =
      (coins.map Coin.coords).get ⟨j, by simpa using hj⟩ := by
    rw [List.get_eq_getElem, List.get_eq_getElem, List.getElem_map,
      List.getElem_map]
    exact heq
  have h2 := hinj hget
  simpa using congrArg Fin.val h2

theorem tmEntry_eval (coins : List Coin) (t j : ℕ) (ht : t < coins.length)
    (hj : j < coins.length) :
    tmEntry coins t j =
      if (coins.getD t dummyCoin).coords ≠ (coins.getD j dummyCoin).coords
      then (coins.getD t dummyCoin).get_step_distance
        (coins.getD j dummyCoin).coords
      else 0 := by
  unfold tmEntry transitionMatrix
  rw [List.getD_eq_getElem _ [] (by simpa using ht)]
  rw [List.getElem_map]
  rw [List.getD_eq_getElem _ 0 (by simpa using hj)]
  rw [List.getElem_map]
  rw [List.getD_eq_getElem coins dummyCoin ht,
    List.getD_eq_getElem coins dummyCoin hj]

theorem path_steps_map (start : Coin) (coins : List Coin)
    (hc : (coins.map Coin.coords).Nodup) :
    ∀ (rest : List ℕ) (t : ℕ), (t :: rest).Nodup →
      (∀ i ∈ t :: rest, i < coins.length) →
    path_steps ((t :: rest).map (fun i => coins.getD i dummyCoin)) =
      chainCost coins t rest := by
  intro rest
  induction rest with
  | nil =>
      intro t _ _
      rfl
  | cons j r ih =>
      intro t hnd hb
      have htj : t ≠ j := by
        have := (List.nodup_cons.mp hnd).1
        intro h
        exact this (h ▸ List.mem_cons_self j r)
      have ht : t < coins.length := hb t (List.mem_cons_self _ _)
      have hj : j < coins.length :=
        hb j (List.mem_cons_of_mem _ (List.mem_cons_self _ _))
      show (coins.getD t dummyCoin).get_step_distance
          (coins.getD j dummyCoin).coords +
          path_steps ((j :: r).map (fun i => coins.getD i dummyCoin)) = _
      rw [ih j (List.nodup_cons.mp hnd).2
        (fun i hi => hb i (List.mem_cons_of_mem _ hi))]
      rw [chainCost, tmEntry_eval coins t j ht hj,
        if_pos (coords_ne_of_ne coins hc ht hj htj)]

theorem hk_perm_cost_map (start : Coin) (coins : List Coin)
    (hc : (coins.map Coin.coords).Nodup) (q : List ℕ) (hnd : q.Nodup)
    (hb : ∀ i ∈ q, i < coins.length) :
    hk_perm_cost start (q.map (fun i => coins.getD i dummyCoin)) =
      idxCost start coins q := by
  rcases q with _ | ⟨j, rest⟩
  · rfl
  · show (coins.getD j dummyCoin).get_step_distance start.coords +
      path_steps ((j :: rest).map (fun i => coins.getD i dummyCoin)) = _
    rw [path_steps_map start coins hc rest j hnd hb]
    rfl

theorem map_range_getD (coins : List Coin) :
    (List.range coins.length).map (fun i => coins.getD i dummyCoin) =
      coins := by
  apply List.ext_getElem
  · simp
  · intro i h1 h2
    rw [List.getElem_map, List.getElem_range]
    exact List.getD_eq_getElem coins dummyCoin h2

theorem perm_index_exists :
    ∀ (p coins : List Coin), p.Perm coins →
    ∃ q : List ℕ, q.Perm (List.range coins.length) ∧
      p = q.map (fun i => coins.getD i dummyCoin) := by
  intro p
  induction p with
  | nil =>
      intro coins hp
      have : coins = [] := List.perm_nil.mp hp.symm
      subst this
      exact ⟨[], by simp, rfl⟩
  | cons c p' ih =>
      intro coins hp
      have hc : c ∈ coins := hp.subset (List.mem_cons_self c p')
      obtain ⟨i, hilt, hci⟩ := List.getElem_of_mem hc
      have hsplit : coins.Perm (c :: coins.eraseIdx i) := by
        have hd : coins.drop i = coins[i] :: coins.drop (i + 1) :=
          List.drop_eq_getElem_cons hilt
        have htd : coins = coins.take i ++ (coins[i] :: coins.drop (i + 1)) := by
          rw [← hd, List.take_append_drop]
        have hperm : (coins.take i ++ (coins[i] :: coins.drop (i + 1))).Perm
            (coins[i] :: (coins.take i ++ coins.drop (i + 1))) :=
          List.perm_middle
        rw [← htd, hci, ← List.eraseIdx_eq_take_drop_succ] at hperm
        exact hperm
      have hp' : p'.Perm (coins.eraseIdx i) :=
        (hp.trans hsplit).cons_inv
      obtain ⟨q', hq', hpq'⟩ := ih (coins.eraseIdx i) hp'
      have hlenE : (coins.eraseIdx i).length = coins.length - 1 :=
        List.length_eraseIdx_of_lt hilt
      have hq'mem : ∀ j ∈ q', j < coins.length - 1 := by
        intro j hj
        have := hq'.subset hj
        rw [List.mem_range, hlenE] at this
        exact this
      have hq'nodup : q'.Nodup :=
        hq'.nodup_iff.mpr (List.nodup_range _)
      refine ⟨i :: q'.map (fun j => if j < i then j else j + 1), ?_, ?_⟩
      · have hinj : Function.Injective
            (fun j : ℕ => if j < i then j else j + 1) := by
          intro a b hab
          dsimp only at hab
          split at hab <;> split at hab <;> omega
        have hnodup : (i :: q'.map
            (fun j => if j < i then j else j + 1)).Nodup := by
          rw [List.nodup_cons]
          constructor
          · intro hmm
            obtain ⟨j, hj, hadj⟩ := List.mem_map.mp hmm
            by_cases hji : j < i
            · rw [if_pos hji] at hadj; omega
            · rw [if_neg hji] at hadj; omega
          · exact hq'nodup.map hinj
        apply (List.perm_ext_iff_of_nodup hnodup (List.nodup_range _)).mpr
        intro x
        rw [List.mem_range, List.mem_cons, List.mem_map]
        constructor
        · rintro (rfl | ⟨j, hj, hadj⟩)
          · exact hilt
          · have hjb := hq'mem j hj
            by_cases hji : j < i
            · rw [if_pos hji] at hadj; omega
            · rw [if_neg hji] at hadj; omega
        · intro hx
          by_cases hxi : x = i
          · exact Or.inl hxi
          by_cases hxlt : x < i
          · refine Or.inr ⟨x, ?_, if_pos hxlt⟩
            apply hq'.mem_iff.mpr
            rw [List.mem_range, hlenE]
            omega
          · refine Or.inr ⟨x - 1, ?_, ?_⟩
            · apply hq'.mem_iff.mpr
              rw [List.mem_range, hlenE]
              omega
            · rw [if_neg (by omega)]
              omega
      · show c :: p' = coins.getD i dummyCoin ::
          (q'.map (fun j => if j < i then j else j + 1)).map
            (fun i => coins.getD i dummyCoin)
        congr 1
        · rw [List.getD_eq_getElem coins dummyCoin hilt, hci]
        · rw [hpq', List.map_map]
          apply List.map_congr_left
          intro j hj
          have hjb := hq'mem j hj
          show (coins.eraseIdx i).getD j dummyCoin = _
          rw [List.getD_eq_getElem (coins.eraseIdx i) dummyCoin
            (by omega : j < (coins.eraseIdx i).length)]
          rw [List.getElem_eraseIdx]
          by_cases hji : j < i
          · rw [dif_pos hji]
            show _ = coins.getD (if j < i then j else j + 1) dummyCoin
            rw [if_pos hji,
              List.getD_eq_getElem coins dummyCoin (by omega)]
          · rw [dif_neg hji]
            show _ = coins.getD (if j < i then j else j + 1) dummyCoin
            rw [if_neg hji,
              List.getD_eq_getElem coins dummyCoin (by omega)]

theorem idxPerms_eq_min_anchored (start : Coin) (coins : List Coin)
    (hc : (coins.map Coin.coords).Nodup) :
    minFrom (fun q => ((idxCost start coins q : ℕ) : ℕ∞))
      (List.range coins.length).permutations ⊤ =
    min_anchored start coins := by
  apply le_antisymm
  · rcases minFrom_attained
      (fun p => ((hk_perm_cost start p : ℕ) : ℕ∞)) coins.permutations ⊤ with
      hT | ⟨p, hp, hpv⟩
    · show _ ≤ min_anchored start coins
      rw [show min_anchored start coins = ⊤ from hT]
      exact le_top
    · obtain ⟨q, hq, rfl⟩ :=
        perm_index_exists p coins (List.mem_permutations.mp hp)
      have hqnodup : q.Nodup := hq.nodup_iff.mpr (List.nodup_range _)
      have hqb : ∀ i ∈ q, i < coins.length := by
        intro i hi
        exact List.mem_range.mp (hq.subset hi)
      have hmem : q ∈ (List.range coins.length).permutations :=
        List.mem_permutations.mpr hq
      refine le_trans (minFrom_mem_le _ _ ⊤ q hmem) (le_of_eq ?_)
      show ((idxCost start coins q : ℕ) : ℕ∞) = min_anchored start coins
      rw [← hk_perm_cost_map start coins hc q hqnodup hqb]
      exact hpv
  · rcases minFrom_attained
      (fun q => ((idxCost start coins q : ℕ) : ℕ∞))
      (List.range coins.length).permutations ⊤ with hT | ⟨q, hq, hqv⟩
    · rw [hT]; exact le_top
    · have hqperm : q.Perm (List.range coins.length) :=
        List.mem_permutations.mp hq
      have hqnodup : q.Nodup := hqperm.nodup_iff.mpr (List.nodup_range _)
      have hqb : ∀ i ∈ q, i < coins.length :=
        fun i hi => List.mem_range.mp (hqperm.subset hi)
      have hmem : q.map (fun i => coins.getD i dummyCoin) ∈
          coins.permutations := by
        apply List.mem_permutations.mpr
        have := hqperm.map (fun i => coins.getD i dummyCoin)
        rw [map_range_getD] at this
        exact this
      refine le_trans (minFrom_mem_le _ _ ⊤ _ hmem) (le_of_eq ?_)
      show ((hk_perm_cost start
        (q.map (fun i => coins.getD i dummyCoin)) : ℕ) : ℕ∞) = _
      rw [hk_perm_cost_map start coins hc q hqnodup hqb]
      exact hqv

/-- Held-Karp equals the cheapest start-anchored permutation tour. -/
theorem hk_eq_min_anchored (start : Coin) (coins : List Coin)
    (hne : coins ≠ []) (hc : (coins.map Coin.coords).Nodup) :
    held_karp_algorithm_for_shortest_distance start coins =
      min_anchored start coins :=
  (hk_eq_dpMin start coins hne).trans
    ((dpMin_range_min start coins hne).trans
      (idxPerms_eq_min_anchored start coins hc))
/-! ## C4 : claim -/

/-- Three coins with cached symmetric distances 2 (A-B), 1 (B-C), 3 (A-C). -/
def cexA : Coin :=
  ⟨(0, 0), 0, fun c => if c = (0, 2) then 2 else if c = (0, 3) then 3 else 0⟩

def cexB : Coin :=
  ⟨(0, 2), 1, fun c => if c = (0, 0) then 2 else if c = (0, 3) then 1 else 0⟩

def cexC : Coin :=
  ⟨(0, 3), 2, fun c => if c = (0, 0) then 3 else if c = (0, 2) then 1 else 0⟩

theorem minFrom_perm (s : α → ℕ∞) {l l' : List α} (h : l.Perm l')
    (b : ℕ∞) : minFrom s l b = minFrom s l' b :=
  h.foldl_eq'
    (fun x _ y _ z => by
      show min (min z (s x)) (s y) = min (min z (s y)) (s x)
      rw [min_assoc, min_assoc, min_comm (s x)]) b

theorem brute_force_eq_minFrom (coins : List Coin) :
    brute_force_find_graph_subset_distance coins =
      minFrom (fun p => ((path_steps p : ℕ) : ℕ∞)) coins.permutations ⊤ := by
  show coins.permutations.foldl _ ⊤ = coins.permutations.foldl _ ⊤
  have hstep : ∀ (b v : ℕ∞), (if v < b then v else b) = min b v := by
    intro b v
    rcases lt_or_le v b with h | h
    · rw [if_pos h, min_eq_right h.le]
    · rw [if_neg (not_lt_of_le h), min_eq_left h]
  have hgen : ∀ (L : List (List Coin)) (b : ℕ∞),
      L.foldl (fun best p => if ((path_steps p : ℕ) : ℕ∞) < best
        then ((path_steps p : ℕ) : ℕ∞) else best) b =
      L.foldl (fun a p => min a ((path_steps p : ℕ) : ℕ∞)) b := by
    intro L
    induction L with
    | nil => intro b; rfl
    | cons p L ih =>
        intro b
        rw [List.foldl_cons, List.foldl_cons, hstep, ih]
  exact hgen coins.permutations ⊤

/-- C4 counterexample: starting at the middle coin of a 2-1-3 triangle,
Held-Karp answers 4 — the best start-anchored tour — while brute force
(with or without the start coin included) answers 3. -/
theorem c4_hk_ne_brute_force_cex :
    held_karp_algorithm_for_shortest_distance cexB [cexA, cexC] = 4 ∧
    brute_force_find_graph_subset_distance [cexA, cexC] = 3 ∧
    brute_force_find_graph_subset_distance [cexB, cexA, cexC] = 3 ∧
    (4 : ℕ∞) ≠ 3 := by
  refine ⟨by decide, ?_, ?_, by decide⟩
  · rw [brute_force_eq_minFrom,
      minFrom_perm _ (List.permutations_perm_permutations' _)]
    decide
  · rw [brute_force_eq_minFrom,
      minFrom_perm _ (List.permutations_perm_permutations' _)]
    decide

/-- C4 (amended): Held-Karp computes the cheapest *start-anchored* tour:
the minimum over all permutations of the coin list of the anchored cost
(the head coin's cached distance to the start plus the consecutive cached
distances along the permutation); it does not in general equal the
unanchored brute-force minimum. -/
theorem c4_held_karp_eq_min_anchored (start : Coin) (coins : List Coin)
    (hne : coins ≠ []) (hc : (coins.map Coin.coords).Nodup) :
    held_karp_algorithm_for_shortest_distance start coins =
      min_anchored start coins :=
  hk_eq_min_anchored start coins hne hc

/-- C4 witness at a concrete input. -/
theorem c4_held_karp_eq_min_anchored_witness :
    held_karp_algorithm_for_shortest_distance cexB [cexA, cexC] =
      min_anchored cexB [cexA, cexC] :=
  c4_held_karp_eq_min_anchored cexB [cexA, cexC] (by simp) (by decide)
/-! ## C2 : the greedy solver without memo realises a permutation cost -/

/-- The cost the greedy loop accumulates: each step adds the chosen coin's
cached distance to the previous position. -/
def revCost (cur : Coin) : List Coin → ℕ
  | [] => 0
  | c :: rest => c.get_step_distance cur.coords + revCost c rest

/-- The scan step of `nnScan`, named for the fold lemmas below. -/
def nnStep (recurse : ℕ∞ → Coin → List Coin → Option Memo →
      ℕ∞ × Option Memo) (bd : ℕ∞) (depth : ℕ) (current : Coin)
    (remaining : List Coin) (st : ScanSt) (p : ℕ × Coin) : ScanSt :=
  let nodeDistance : ℕ∞ := (p.2.get_step_distance current.coords : ℕ)
  if bd ≤ nodeDistance then st
  else
    let sub : ℕ∞ × Option Memo :=
      if 1 < depth ∧ 1 < remaining.length then
        recurse st.minStep p.2 (remaining.eraseIdx p.1) st.memo
      else (0, st.memo)
    let stepDistance := nodeDistance + sub.1
    if stepDistance < st.minStep then
      ⟨p.1, nodeDistance, stepDistance, sub.2⟩
    else
      { st with memo := sub.2 }

theorem nnScan_eq_fold (recurse : ℕ∞ → Coin → List Coin → Option Memo →
      ℕ∞ × Option Memo) (bd : ℕ∞) (depth : ℕ) (current : Coin)
    (remaining : List Coin) (memo : Option Memo) :
    nnScan recurse bd depth current remaining memo =
      remaining.enum.foldl (nnStep recurse bd depth current remaining)
        ⟨0, ⊤, ⊤, memo⟩ := rfl

theorem enum_valid :
    ∀ (l : List Coin) (k : ℕ) (p : ℕ × Coin), p ∈ List.enumFrom k l →
      k ≤ p.1 ∧ p.1 - k < l.length ∧ l.getD (p.1 - k) dummyCoin = p.2 := by
  intro l
  induction l with
  | nil => intro k p hp; cases hp
  | cons c l ih =>
      intro k p hp
      rw [show List.enumFrom k (c :: l) = (k, c) :: List.enumFrom (k + 1) l
        from rfl] at hp
      rcases List.mem_cons.mp hp with rfl | hp'
      · exact ⟨le_refl k, by simp, by simp⟩
      · obtain ⟨h1, h2, h3⟩ := ih (k + 1) p hp'
        refine ⟨by omega, by simp; omega, ?_⟩
        rw [show p.1 - k = (p.1 - (k + 1)) + 1 from by omega]
        exact h3

/-- With no memo, every scan step keeps the memo empty. -/
theorem scanFold_memo (recurse : ℕ∞ → Coin → List Coin → Option Memo →
      ℕ∞ × Option Memo) (bd : ℕ∞) (depth : ℕ) (current : Coin)
    (remaining : List Coin)
    (hrec : ∀ (b : ℕ∞) (node : Coin) (rem' : List Coin),
      (recurse b node rem' none).2 = none) :
    ∀ (L : List (ℕ × Coin)) (st : ScanSt), st.memo = none →
    ((L.foldl (nnStep recurse bd depth current remaining) st)).memo =
      none := by
  intro L
  induction L with
  | nil => intro st h; exact h
  | cons p L ihL =>
      intro st h
      rw [List.foldl_cons]
      apply ihL
      unfold nnStep
      by_cases hskip : bd ≤ ((p.2.get_step_distance current.coords : ℕ) : ℕ∞)
      · rw [if_pos hskip]; exact h
      · rw [if_neg hskip]
        dsimp only
        by_cases hcond : 1 < depth ∧ 1 < remaining.length
        · rw [if_pos hcond]
          rw [h]
          by_cases hlt : ((p.2.get_step_distance current.coords : ℕ) : ℕ∞) +
              (recurse st.minStep p.2 (remaining.eraseIdx p.1) none).1 <
              st.minStep
          · rw [if_pos hlt]
            exact hrec _ _ _
          · rw [if_neg hlt]
            exact hrec _ _ _
        · rw [if_neg hcond]
          dsimp only
          by_cases hlt : ((p.2.get_step_distance current.coords : ℕ) : ℕ∞) +
              0 < st.minStep
          · rw [if_pos hlt]; exact h
          · rw [if_neg hlt]; exact h

/-- With no memo, the solver's returned memo is `none`. -/
theorem tgo_snd_none :
    ∀ (fuel : ℕ) (bd : ℕ∞) (depth : ℕ) (cur : Coin) (rem : List Coin)
      (acc : ℕ∞) (p0 : Coin) (pp : List Coin),
    (tgo fuel bd depth cur rem none acc p0 pp).2 = none := by
  intro fuel
  induction fuel with
  | zero => intro bd depth cur rem acc p0 pp; rfl
  | succ fuel ih =>
      intro bd depth cur rem acc p0 pp
      rcases rem with _ | ⟨c, cs⟩
      · rfl
      · rw [tgo]
        have hscan : (nnScan
            (fun b' node rem' mo => tgo fuel b' (depth - 1) node rem' mo
              0 node [])
            bd depth cur (c :: cs) none).memo = none := by
          rw [nnScan_eq_fold]
          exact scanFold_memo _ bd depth cur (c :: cs)
            (fun b node rem' => ih b (depth - 1) node rem' 0 node []) _ _ rfl
        rw [hscan]
        exact ih _ _ _ _ _ _ _

theorem nnStep_minStep_le (recurse : ℕ∞ → Coin → List Coin → Option Memo →
      ℕ∞ × Option Memo) (bd : ℕ∞) (depth : ℕ) (cur : Coin)
    (rem : List Coin) (st : ScanSt) (p : ℕ × Coin) :
    (nnStep recurse bd depth cur rem st p).minStep ≤ st.minStep := by
  unfold nnStep
  by_cases hskip : bd ≤ ((p.2.get_step_distance cur.coords : ℕ) : ℕ∞)
  · rw [if_pos hskip]
  · rw [if_neg hskip]
    dsimp only
    by_cases hlt : ((p.2.get_step_distance cur.coords : ℕ) : ℕ∞) +
        (if 1 < depth ∧ 1 < rem.length then
          recurse st.minStep p.2 (rem.eraseIdx p.1) st.memo
        else (0, st.memo)).1 < st.minStep
    · rw [if_pos hlt]
      exact hlt.le
    · rw [if_neg hlt]

theorem scanFold_minStep_le (recurse : ℕ∞ → Coin → List Coin →
      Option Memo → ℕ∞ × Option Memo) (bd : ℕ∞) (depth : ℕ) (cur : Coin)
    (rem : List Coin) :
    ∀ (L : List (ℕ × Coin)) (st : ScanSt),
    (L.foldl (nnStep recurse bd depth cur rem) st).minStep ≤ st.minStep := by
  intro L
  induction L with
  | nil => intro st; exact le_refl _
  | cons p L ihL =>
      intro st
      rw [List.foldl_cons]
      exact le_trans (ihL _) (nnStep_minStep_le recurse bd depth cur rem st p)

theorem scanFold_inv (recurse : ℕ∞ → Coin → List Coin → Option Memo →
      ℕ∞ × Option Memo) (depth : ℕ) (cur : Coin) (rem : List Coin)
    (hrecm : ∀ (b : ℕ∞) (node : Coin) (rem' : List Coin),
      (recurse b node rem' none).2 = none) :
    ∀ (L : List (ℕ × Coin)) (st : ScanSt),
    (∀ p ∈ L, p.1 < rem.length ∧ rem.getD p.1 dummyCoin = p.2) →
    st.memo = none →
    (st.minStep < ⊤ → st.minIdx < rem.length ∧
      st.minDistance = ((rem.getD st.minIdx dummyCoin).get_step_distance
        cur.coords : ℕ∞)) →
    ((L.foldl (nnStep recurse ⊤ depth cur rem) st).minStep < ⊤ →
      (L.foldl (nnStep recurse ⊤ depth cur rem) st).minIdx < rem.length ∧
      (L.foldl (nnStep recurse ⊤ depth cur rem) st).minDistance =
        ((rem.getD (L.foldl (nnStep recurse ⊤ depth cur rem) st).minIdx
          dummyCoin).get_step_distance cur.coords : ℕ∞)) := by
  intro L
  induction L with
  | nil => intro st _ _ hQ; exact hQ
  | cons p L ihL =>
      intro st hvalid hmemo hQ
      rw [List.foldl_cons]
      have hval := hvalid p (List.mem_cons_self p L)
      have hskip : ¬((⊤ : ℕ∞) ≤
          ((p.2.get_step_distance cur.coords : ℕ) : ℕ∞)) := by
        intro h
        exact ENat.coe_ne_top _ (top_le_iff.mp h)
      have hmemo' : (nnStep recurse ⊤ depth cur rem st p).memo = none := by
        unfold nnStep
        rw [if_neg hskip]
        dsimp only
        by_cases hcond : 1 < depth ∧ 1 < rem.length
        · rw [if_pos hcond, hmemo]
          by_cases hlt : ((p.2.get_step_distance cur.coords : ℕ) : ℕ∞) +
              (recurse st.minStep p.2 (rem.eraseIdx p.1) none).1 <
              st.minStep
          · rw [if_pos hlt]; exact hrecm _ _ _
          · rw [if_neg hlt]; exact hrecm _ _ _
        · rw [if_neg hcond]
          dsimp only
          by_cases hlt : ((p.2.get_step_distance cur.coords : ℕ) : ℕ∞) +
              0 < st.minStep
          · rw [if_pos hlt]; exact hmemo
          · rw [if_neg hlt]; exact hmemo
      have hQ' : (nnStep recurse ⊤ depth cur rem st p).minStep < ⊤ →
          (nnStep recurse ⊤ depth cur rem st p).minIdx < rem.length ∧
          (nnStep recurse ⊤ depth cur rem st p).minDistance =
            ((rem.getD (nnStep recurse ⊤ depth cur rem st p).minIdx
              dummyCoin).get_step_distance cur.coords : ℕ∞) := by
        unfold nnStep
        rw [if_neg hskip]
        dsimp only
        by_cases hlt : ((p.2.get_step_distance cur.coords : ℕ) : ℕ∞) +
            (if 1 < depth ∧ 1 < rem.length then
              recurse st.minStep p.2 (rem.eraseIdx p.1) st.memo
            else (0, st.memo)).1 < st.minStep
        · rw [if_pos hlt]
          intro _
          refine ⟨hval.1, ?_⟩
          rw [hval.2]
        · rw [if_neg hlt]
          intro h
          exact hQ h
      exact ihL _ (fun q hq => hvalid q (List.mem_cons_of_mem p hq))
        hmemo' hQ'

theorem scanFold_becomes_finite (recurse : ℕ∞ → Coin → List Coin →
      Option Memo → ℕ∞ × Option Memo) (depth : ℕ) (cur : Coin)
    (rem : List Coin) (p : ℕ × Coin) (L : List (ℕ × Coin)) (st : ScanSt)
    (hmemo : st.memo = none) (htop : st.minStep = ⊤)
    (hfin : ∃ v : ℕ, recurse ⊤ p.2 (rem.eraseIdx p.1) none = (↑v, none)) :
    ((p :: L).foldl (nnStep recurse ⊤ depth cur rem) st).minStep < ⊤ := by
  rw [List.foldl_cons]
  have hstep : (nnStep recurse ⊤ depth cur rem st p).minStep < ⊤ := by
    unfold nnStep
    have hskip : ¬((⊤ : ℕ∞) ≤
        ((p.2.get_step_distance cur.coords : ℕ) : ℕ∞)) := by
      intro h
      exact ENat.coe_ne_top _ (top_le_iff.mp h)
    rw [if_neg hskip]
    dsimp only
    by_cases hcond : 1 < depth ∧ 1 < rem.length
    · rw [if_pos hcond, hmemo, htop]
      obtain ⟨v, hv⟩ := hfin
      rw [hv]
      have hfinite : ((p.2.get_step_distance cur.coords : ℕ) : ℕ∞) +
          ((v : ℕ) : ℕ∞) < ⊤ := by
        rw [← Nat.cast_add]
        exact ENat.coe_lt_top _
      rw [if_pos hfinite]
      exact hfinite
    · rw [if_neg hcond, htop]
      dsimp only
      have hfinite : ((p.2.get_step_distance cur.coords : ℕ) : ℕ∞) +
          (0 : ℕ∞) < ⊤ := by
        rw [add_zero]
        exact ENat.coe_lt_top _
      rw [if_pos hfinite]
      exact hfinite
  exact lt_of_le_of_lt (scanFold_minStep_le recurse ⊤ depth cur rem L _)
    hstep

theorem perm_getD_eraseIdx (l : List Coin) (i : ℕ) (h : i < l.length) :
    l.Perm (l.getD i dummyCoin :: l.eraseIdx i) := by
  rw [List.getD_eq_getElem l dummyCoin h]
  have hd : l.drop i = l[i] :: l.drop (i + 1) := List.drop_eq_getElem_cons h
  have htd : l = l.take i ++ (l[i] :: l.drop (i + 1)) := by
    rw [← hd, List.take_append_drop]
  have hperm : (l.take i ++ (l[i] :: l.drop (i + 1))).Perm
      (l[i] :: (l.take i ++ l.drop (i + 1))) := List.perm_middle
  rw [← htd, ← List.eraseIdx_eq_take_drop_succ] at hperm
  exact hperm

theorem nnScan_spec (recurse : ℕ∞ → Coin → List Coin → Option Memo →
      ℕ∞ × Option Memo) (depth : ℕ) (cur : Coin) (c : Coin)
    (cs : List Coin)
    (hrecm : ∀ (b : ℕ∞) (node : Coin) (rem' : List Coin),
      (recurse b node rem' none).2 = none)
    (hfin : ∃ v : ℕ, recurse ⊤ c cs none = (↑v, none)) :
    (nnScan recurse ⊤ depth cur (c :: cs) none).memo = none ∧
    (nnScan recurse ⊤ depth cur (c :: cs) none).minIdx < (c :: cs).length ∧
    (nnScan recurse ⊤ depth cur (c :: cs) none).minDistance =
      (((c :: cs).getD (nnScan recurse ⊤ depth cur (c :: cs) none).minIdx
        dummyCoin).get_step_distance cur.coords : ℕ∞) := by
  rw [nnScan_eq_fold]
  have henum : (c :: cs).enum = (0, c) :: List.enumFrom 1 cs := rfl
  have hvalid : ∀ p ∈ (c :: cs).enum,
      p.1 < (c :: cs).length ∧ (c :: cs).getD p.1 dummyCoin = p.2 := by
    intro p hp
    have := enum_valid (c :: cs) 0 p hp
    rw [Nat.sub_zero] at this
    exact ⟨this.2.1, this.2.2⟩
  have hfin0 : ∃ v : ℕ,
      recurse ⊤ ((0, c) : ℕ × Coin).2
        ((c :: cs).eraseIdx ((0, c) : ℕ × Coin).1) none = (↑v, none) := hfin
  have hlt : ((c :: cs).enum.foldl
      (nnStep recurse ⊤ depth cur (c :: cs)) ⟨0, ⊤, ⊤, none⟩).minStep < ⊤ := by
    rw [henum]
    exact scanFold_becomes_finite recurse depth cur (c :: cs) (0, c)
      (List.enumFrom 1 cs) ⟨0, ⊤, ⊤, none⟩ rfl rfl hfin0
  refine ⟨?_, ?_⟩
  · exact scanFold_memo recurse ⊤ depth cur (c :: cs) hrecm _ _ rfl
  · exact scanFold_inv recurse depth cur (c :: cs) hrecm (c :: cs).enum
      ⟨0, ⊤, ⊤, none⟩ hvalid rfl (fun h => absurd h (lt_irrefl ⊤)) hlt

/-- Without a memo and with no external bound, the greedy solver's result
is the accumulated cost of visiting some permutation of the remaining
coins. -/
theorem tgo_none_perm :
    ∀ (fuel : ℕ) (rem : List Coin) (depth : ℕ) (cur : Coin) (acc : ℕ∞)
      (p0 : Coin) (pp : List Coin), rem.length < fuel →
    ∃ p : List Coin, p.Perm rem ∧
      tgo fuel ⊤ depth cur rem none acc p0 pp =
        (acc + ((revCost cur p : ℕ) : ℕ∞), none) := by
  intro fuel
  induction fuel with
  | zero => intro rem depth cur acc p0 pp h; omega
  | succ fuel ih =>
      intro rem depth cur acc p0 pp hlt
      rcases rem with _ | ⟨c, cs⟩
      · refine ⟨[], List.Perm.refl _, ?_⟩
        show (acc, (none : Option Memo)) = _
        rw [show revCost cur [] = 0 from rfl, Nat.cast_zero, add_zero]
      · have hrecm : ∀ (b : ℕ∞) (node : Coin) (rem' : List Coin),
            ((fun b' node rem' mo =>
              tgo fuel b' (depth - 1) node rem' mo 0 node [])
              b node rem' none).2 = none :=
          fun b node rem' => tgo_snd_none fuel b (depth - 1) node rem' 0
            node []
        have hfin : ∃ v : ℕ,
            (fun b' node rem' mo =>
              tgo fuel b' (depth - 1) node rem' mo 0 node [])
              ⊤ c cs none = (↑v, none) := by
          obtain ⟨q, _, hq⟩ := ih cs (depth - 1) c 0 c [] (by
            simp at hlt
            omega)
          exact ⟨revCost c q, by dsimp only; rw [hq, zero_add]⟩
        obtain ⟨hm, hidx, hdist⟩ := nnScan_spec
          (fun b' node rem' mo =>
            tgo fuel b' (depth - 1) node rem' mo 0 node [])
          depth cur c cs hrecm hfin
        have hlen' : ((c :: cs).eraseIdx
            (nnScan (fun b' node rem' mo =>
              tgo fuel b' (depth - 1) node rem' mo 0 node [])
              ⊤ depth cur (c :: cs) none).minIdx).length < fuel := by
          rw [List.length_eraseIdx_of_lt hidx]
          simp at hlt ⊢
          omega
        obtain ⟨p', hp', heq'⟩ := ih
          ((c :: cs).eraseIdx (nnScan (fun b' node rem' mo =>
            tgo fuel b' (depth - 1) node rem' mo 0 node [])
            ⊤ depth cur (c :: cs) none).minIdx)
          depth
          ((c :: cs).getD (nnScan (fun b' node rem' mo =>
            tgo fuel b' (depth - 1) node rem' mo 0 node [])
            ⊤ depth cur (c :: cs) none).minIdx dummyCoin)
          (acc + (nnScan (fun b' node rem' mo =>
            tgo fuel b' (depth - 1) node rem' mo 0 node [])
            ⊤ depth cur (c :: cs) none).minDistance)
          p0
          (pp ++ [(c :: cs).getD (nnScan (fun b' node rem' mo =>
            tgo fuel b' (depth - 1) node rem' mo 0 node [])
            ⊤ depth cur (c :: cs) none).minIdx dummyCoin])
          hlen'
        refine ⟨(c :: cs).getD (nnScan (fun b' node rem' mo =>
            tgo fuel b' (depth - 1) node rem' mo 0 node [])
            ⊤ depth cur (c :: cs) none).minIdx dummyCoin :: p', ?_, ?_⟩
        · exact (hp'.cons _).trans (perm_getD_eraseIdx (c :: cs) _
            hidx).symm
        · rw [tgo]
          rw [hm]
          rw [heq']
          rw [hdist]
          rw [show revCost cur ((c :: cs).getD (nnScan
              (fun b' node rem' mo =>
                tgo fuel b' (depth - 1) node rem' mo 0 node [])
              ⊤ depth cur (c :: cs) none).minIdx dummyCoin :: p') =
            ((c :: cs).getD (nnScan (fun b' node rem' mo =>
                tgo fuel b' (depth - 1) node rem' mo 0 node [])
              ⊤ depth cur (c :: cs) none).minIdx
              dummyCoin).get_step_distance cur.coords +
            revCost ((c :: cs).getD (nnScan (fun b' node rem' mo =>
                tgo fuel b' (depth - 1) node rem' mo 0 node [])
              ⊤ depth cur (c :: cs) none).minIdx dummyCoin) p' from rfl]
          rw [Nat.cast_add, add_assoc]

theorem revCost_eq_path (coins : List Coin)
    (hsym : ∀ a ∈ coins, ∀ b ∈ coins,
      a.get_step_distance b.coords = b.get_step_distance a.coords) :
    ∀ (r : List Coin) (c : Coin), c ∈ coins → (∀ x ∈ r, x ∈ coins) →
    revCost c r = path_steps (c :: r) := by
  intro r
  induction r with
  | nil => intro c _ _; rfl
  | cons b r' ih =>
      intro c hc hr
      show b.get_step_distance c.coords + revCost b r' = _
      rw [ih b (hr b (List.mem_cons_self b r'))
        (fun x hx => hr x (List.mem_cons_of_mem b hx))]
      rw [hsym b (hr b (List.mem_cons_self b r')) c hc]
      rfl

/-- C2: with the default depth 2 and no external bound, the approximate
solver's result is at least the exact Held-Karp optimum on the same start
and coin set (distances populated symmetrically, coins at distinct
coordinates). -/
theorem c2_traverse_ge_held_karp (start : Coin) (coins : List Coin)
    (hne : coins ≠ []) (hc : (coins.map Coin.coords).Nodup)
    (hsym : ∀ a ∈ coins, ∀ b ∈ coins,
      a.get_step_distance b.coords = b.get_step_distance a.coords) :
    held_karp_algorithm_for_shortest_distance start coins ≤
      (traverse_graph_with_nn start coins none 2 ⊤).1 := by
  obtain ⟨p, hperm, heq⟩ := tgo_none_perm (2 + coins.length + 1) coins 2
    start 0 start [] (by omega)
  have hval : (traverse_graph_with_nn start coins none 2 ⊤).1 =
      ((revCost start p : ℕ) : ℕ∞) := by
    show (tgo (2 + coins.length + 1) ⊤ 2 start coins none 0 start []).1 = _
    rw [heq, zero_add]
  rw [hval, hk_eq_min_anchored start coins hne hc]
  have hmem : p ∈ coins.permutations := List.mem_permutations.mpr hperm
  have hcost : hk_perm_cost start p = revCost start p := by
    rcases p with _ | ⟨c, r⟩
    · rfl
    · show hk_perm_cost start (c :: r) = revCost start (c :: r)
      rw [show revCost start (c :: r) =
        c.get_step_distance start.coords + revCost c r from rfl]
      rw [revCost_eq_path coins hsym r c
        (hperm.subset (List.mem_cons_self c r))
        (fun x hx => hperm.subset (List.mem_cons_of_mem c hx))]
      rfl
  have hle := minFrom_mem_le
    (fun p => ((hk_perm_cost start p : ℕ) : ℕ∞)) coins.permutations ⊤ p hmem
  rw [show min_anchored start coins =
    minFrom (fun p => ((hk_perm_cost start p : ℕ) : ℕ∞))
      coins.permutations ⊤ from rfl]
  dsimp only at hle
  rw [hcost] at hle
  exact hle

/-- C2 witness at a concrete input. -/
theorem c2_traverse_ge_held_karp_witness :
    held_karp_algorithm_for_shortest_distance cexB [cexA, cexC] ≤
      (traverse_graph_with_nn cexB [cexA, cexC] none 2 ⊤).1 :=
  c2_traverse_ge_held_karp cexB [cexA, cexC] (by simp) (by decide)
    (by decide)
/-! ## C1 : the aggregator's mean and the shared memo -/

/-- A 2 × 5 board with five coins; the bottom-row coin links the two
top-row pairs. -/
def c1Board : Board := [['*','*','.','*','*'],['#','#','*','#','#']]

/-- The claim's reading of one combination's tour length: the minimum over
the `K` start choices of the solver's result on that start alone — no
shared memo. -/
def best_start_indep (K : ℕ) (combo : List Coin) : ℕ∞ :=
  minFrom (fun idx => (traverse_graph_with_nn (combo.getD idx dummyCoin)
    (combo.eraseIdx idx) none 2 ⊤).1) (List.range K) ⊤

/-- The claim's memo-free arithmetic mean over all size-`K` combinations. -/
def mean_indep (board : Board) (K : ℕ) : Except Err (WithTop ℚ) :=
  match set_coin_distances board (scanCoins board) with
  | .error e => .error e
  | .ok coins =>
      let lens := (combos K coins).map (best_start_indep K)
      if lens.length = 0 then .error .divZero
      else
        let s := lens.foldl (· + ·) (0 : ℕ∞)
        if s = ⊤ then .ok ⊤
        else .ok ((s.toNat : ℚ) / (lens.length : ℚ) : ℚ)

/-- Evaluate `get_expected_length` from its integer-level pieces, keeping
the final division symbolic. -/
theorem gel_eval (board : Board) (K s n : ℕ)
    (h : (match set_coin_distances board (scanCoins board) with
      | .ok coins =>
          match run_combinations K coins
              ⟨coins.length, 1 <<< coins.length, []⟩ with
          | .ok st => some (st.1.foldl (· + ·) (0 : ℕ∞), st.1.length)
          | .error _ => none
      | .error _ => none) = some (((s : ℕ) : ℕ∞), n))
    (hn : n ≠ 0) :
    get_expected_length board K =
      .ok ((((s : ℕ) : ℚ) / ((n : ℕ) : ℚ) : ℚ) : WithTop ℚ) := by
  cases hscd : set_coin_distances board (scanCoins board) with
  | error e =>
      rw [hscd] at h
      simp at h
  | ok coins =>
      rw [hscd] at h
      dsimp only at h
      cases hrc : run_combinations K coins
          ⟨coins.length, 1 <<< coins.length, []⟩ with
      | error e =>
          rw [hrc] at h
          simp at h
      | ok st =>
          rw [hrc] at h
          dsimp only at h
          have hh := Option.some.inj h
          have h1 : st.1.foldl (· + ·) (0 : ℕ∞) = ((s : ℕ) : ℕ∞) :=
            congrArg Prod.fst hh
          have h2 : st.1.length = n := congrArg Prod.snd hh
          unfold get_expected_length
          rw [hscd]
          dsimp only
          rw [hrc]
          dsimp only
          rw [h2, if_neg hn, h1]
          rw [if_neg (ENat.coe_ne_top _)]
          rw [ENat.toNat_coe]

/-- Evaluate `mean_indep` the same way. -/
theorem mean_indep_eval (board : Board) (K s n : ℕ)
    (h : (match set_coin_distances board (scanCoins board) with
      | .ok coins =>
          some (((combos K coins).map (best_start_indep K)).foldl
              (· + ·) (0 : ℕ∞),
            ((combos K coins).map (best_start_indep K)).length)
      | .error _ => none) = some (((s : ℕ) : ℕ∞), n))
    (hn : n ≠ 0) :
    mean_indep board K =
      .ok ((((s : ℕ) : ℚ) / ((n : ℕ) : ℚ) : ℚ) : WithTop ℚ) := by
  cases hscd : set_coin_distances board (scanCoins board) with
  | error e =>
      rw [hscd] at h
      simp at h
  | ok coins =>
      rw [hscd] at h
      dsimp only at h
      have hh := Option.some.inj h
      have h1 : ((combos K coins).map (best_start_indep K)).foldl
          (· + ·) (0 : ℕ∞) = ((s : ℕ) : ℕ∞) := congrArg Prod.fst hh
      have h2 : ((combos K coins).map (best_start_indep K)).length = n :=
        congrArg Prod.snd hh
      unfold mean_indep
      rw [hscd]
      dsimp only
      rw [h2, if_neg hn, h1]
      rw [if_neg (ENat.coe_ne_top _)]
      rw [ENat.toNat_coe]

theorem combos_self : ∀ (l : List α), combos l.length l = [l] := by
  intro l
  induction l with
  | nil => rfl
  | cons x xs ih =>
      show combos (xs.length + 1) (x :: xs) = [x :: xs]
      rw [show combos (xs.length + 1) (x :: xs) =
        (combos xs.length xs).map (x :: ·) ++ combos (xs.length + 1) xs
        from rfl]
      rw [ih]
      have hnil : combos (xs.length + 1) xs = [] := by
        apply List.eq_nil_iff_forall_not_mem.mpr
        intro S hS
        obtain ⟨hsub, hlen⟩ := (combos_mem _ _ _).mp hS
        have := hsub.length_le
        omega
      rw [hnil]
      rfl

/-- C1 counterexample: on a five-coin board with `K = 5` the aggregator
returns 7, while the claim's memo-free mean of best-start results is 6:
the shared memo changes the aggregated output. -/
theorem c1_memo_free_mean_cex :
    get_expected_length c1Board 5 =
      .ok ((((7 : ℕ) : ℚ) / ((1 : ℕ) : ℚ) : ℚ) : WithTop ℚ) ∧
    mean_indep c1Board 5 =
      .ok ((((6 : ℕ) : ℚ) / ((1 : ℕ) : ℚ) : ℚ) : WithTop ℚ) ∧
    (((((7 : ℕ) : ℚ) / ((1 : ℕ) : ℚ) : ℚ) : WithTop ℚ)) ≠
      ((((6 : ℕ) : ℚ) / ((1 : ℕ) : ℚ) : ℚ) : WithTop ℚ) := by
  refine ⟨gel_eval c1Board 5 7 1 rfl (by decide),
    mean_indep_eval c1Board 5 6 1 rfl (by decide), ?_⟩
  rw [Ne, WithTop.coe_eq_coe]
  norm_num

/-- C1 (amended): with `K` equal to the total coin count there is exactly
one combination, and the output is that single combination's best-start
tour length, computed with the one shared memo threaded through its `K`
start choices. -/
theorem c1_k_eq_n_single_combination (board : Board) (coins : List Coin)
    (st : ℕ∞ × Memo) (s : ℕ)
    (h1 : set_coin_distances board (scanCoins board) = .ok coins)
    (h2 : bestStart coins.length coins
      ⟨coins.length, 1 <<< coins.length, []⟩ = .ok st)
    (h3 : st.1 = ((s : ℕ) : ℕ∞)) :
    get_expected_length board coins.length =
      .ok ((((s : ℕ) : ℚ) : ℚ) : WithTop ℚ) := by
  unfold get_expected_length
  rw [h1]
  dsimp only
  unfold run_combinations
  rw [combos_self]
  rw [runCombos]
  rw [h2]
  dsimp only
  rw [runCombos]
  rw [List.nil_append]
  dsimp only
  rw [if_neg (by simp : ¬([st.1] : List ℕ∞).length = 0)]
  rw [show ([st.1].foldl (· + ·) (0 : ℕ∞)) = st.1 from by
    rw [List.foldl_cons, List.foldl_nil, zero_add]]
  rw [h3]
  rw [if_neg (ENat.coe_ne_top _)]
  rw [ENat.toNat_coe]
  norm_num

/-- C1 witness on the one-coin board. -/
theorem c1_k_eq_n_single_combination_witness :
    get_expected_length [['*']] 1 =
      .ok ((((0 : ℕ) : ℚ) : ℚ) : WithTop ℚ) :=
  c1_k_eq_n_single_combination [['*']]
    [⟨((0 : ℤ), (0 : ℤ)), 0, fun _ => 0⟩]
    ((0 : ℕ∞), ⟨1, 2, [((0, 2), 0)]⟩) 0 rfl rfl rfl
